import Mathlib

/-!
Verification of the xql view-layer validation engine.

This file gives a shallow embedding, in Lean 4, of the schema-driven
validation engine of the kcmvp/xql repository (packages view, internal and
xql/constraint.go), and proves or refutes the specification claims about it.

Conventions of the embedding:
* Go strings are Lean Strings; all computations on them are expressed on the
  underlying character lists so that they evaluate inside the kernel.
* Go errors become the inductive GoErr: a plain error carries its message,
  fmt.Errorf with %w becomes GoErr.wrap, and the view-layer accumulated
  validationError becomes GoErr.agg over its (field path, error) entries.
* Go maps used for error aggregation and result objects become association
  lists whose update operation overwrites an existing key in place, which
  realizes the same key → value function as the Go map.
* Functions that can panic return a sum with an explicit hard-failure case.
-/

/-- Lexicographic comparison of character lists by code point. For the ASCII
keys produced by the engine this is exactly the byte order used by Go's
sort.Strings. -/
def charsLe : List Char → List Char → Bool
  | [], _ => true
  | _ :: _, [] => false
  | a :: as, b :: bs => if a = b then charsLe as bs else decide (a < b)

/-- String comparison used to model sort.Strings in validationError.Error. -/
def strLe (a b : String) : Bool := charsLe a.data b.data

/-- Character-list splitter underlying the model of Go strings.Split(s, "."). -/
def splitChars (sep : Char) : List Char → List (List Char)
  | [] => [[]]
  | c :: cs =>
    let r := splitChars sep cs
    if c = sep then [] :: r
    else
      match r with
      | h :: t => (c :: h) :: t
      | [] => [[c]]

/-- Model of Go strings.Split(s, "."): splitting on the dot separator. -/
def splitOnDot (s : String) : List String := (splitChars '.' s.data).map String.mk

/-- Model of Go strings.Contains(s, c) for a one-character needle. -/
def containsChar (c : Char) (s : String) : Bool := s.data.contains c

/-- Last dot-separated segment of a qualified name; model of JSONField.Name,
which returns q[i+1:] for the last index i of '.', or q itself (or "" when
q is empty). -/
def lastSegment (q : String) : String := ((splitChars '.' q.data).map String.mk).getLastD ""

/-- Digit-list accumulator for decimal parsing. -/
def digitsVal (acc : Nat) : List Char → Option Nat
  | [] => some acc
  | c :: cs => if c.isDigit then digitsVal (10 * acc + (c.toNat - 48)) cs else none

/-- Decimal natural-number reading of a raw string (digits only, nonempty). -/
def decNat? (s : String) : Option Nat :=
  match s.data with
  | [] => none
  | l => digitsVal 0 l

/-- Decimal integer reading of a raw string: optional leading '-', then a
nonempty digit run. -/
def decInt? (s : String) : Option Int :=
  match s.data with
  | [] => none
  | '-' :: rest =>
    match rest with
    | [] => none
    | _ => (digitsVal 0 rest).map (fun n => -(n : Int))
  | l => (digitsVal 0 l).map Int.ofNat

/-- Model of Go strconv.Atoi (strconv.ParseInt base 10): optional sign then
digits, rejecting anything else and the out-of-int64-range values (Go reports
ErrRange there, which every caller in this code base treats as failure). -/
def atoi? (s : String) : Option Int :=
  let core : List Char → Option Int := fun l =>
    match l with
    | [] => none
    | _ => (digitsVal 0 l).map Int.ofNat
  let signed : Option Int :=
    match s.data with
    | [] => none
    | '-' :: rest => (core rest).map (- ·)
    | '+' :: rest => core rest
    | l => core l
  match signed with
  | some v => if v < -(2 ^ 63) ∨ 2 ^ 63 - 1 < v then none else some v
  | none => none

/-- Model of Go errors: a plain message, a fmt.Errorf("...%w...") wrapper with
the text standing before and after the wrapped error, or the view-layer
aggregated validationError with its field-path → error entries. -/
inductive GoErr where
  | msg (s : String)
  | wrap (pre : String) (inner : GoErr) (post : String)
  | agg (entries : List (String × GoErr))

/-- Error map of the validationError aggregator: association list whose add
overwrites an existing key, realizing Go's map[string]error. -/
abbrev ErrMap := List (String × GoErr)

/-- Model of validationError.add: at most one error per field, a duplicate
write overwrites the previous one. -/
def errsAdd (m : ErrMap) (k : String) (e : GoErr) : ErrMap :=
  if m.any (fun kv => kv.1 = k) then m.map (fun kv => if kv.1 = k then (k, e) else kv)
  else m ++ [(k, e)]

/-- Model of errors.As(err, &nested) for nested *validationError: walk the
%w-unwrap chain and surface the first aggregated error found. -/
def asAgg : GoErr → Option ErrMap
  | .msg _ => none
  | .wrap _ inner _ => asAgg inner
  | .agg es => some es

/-- Model of the single-entry extraction in JSONField.validate for arrays of
objects: when the element failure is an aggregate holding exactly one error,
use that inner error instead of the aggregate. -/
def unwrapSingle (e : GoErr) : GoErr :=
  match asAgg e with
  | some [kv] => kv.2
  | _ => e

/-- Propositional form of strLe, the sorting relation of the model. Go's
sort.Strings produces the unique ascending reordering, so any sorting
algorithm over this total order is a faithful model; the file uses
List.insertionSort, which evaluates inside the kernel. -/
def strLeP (a b : String) : Prop := strLe a b = true

instance : DecidableRel strLeP := fun a b => inferInstanceAs (Decidable (_ = true))

/-- Map lookup with the Go zero value for a missing key. -/
def lookupD (es : List (String × String)) (k : String) : String :=
  match es.lookup k with
  | some v => v
  | none => ""

/-- Formatting of validationError.Error on already-rendered entries: empty map
renders as "", otherwise the keys are sorted ascending and the header is
directly followed by one "- path: message" segment per key. The source
writes the segments with strings.Builder and no newline separators. -/
def renderAgg (es : List (String × String)) : String :=
  if es.isEmpty then ""
  else
    "validation failed with the following errors:" ++
      String.join (((es.map Prod.fst).insertionSort strLeP).map
        (fun k => "- " ++ k ++ ": " ++ lookupD es k))

mutual
/-- Rendering of a Go error message. A wrap contributes its surrounding text;
an aggregate renders via the validationError.Error format. -/
def GoErr.message : GoErr → String
  | .msg s => s
  | .wrap pre inner post => pre ++ inner.message ++ post
  | .agg es => renderAgg (messageEntries es)
/-- Per-entry message computation for an aggregate's entries. -/
def messageEntries : List (String × GoErr) → List (String × String)
  | [] => []
  | (k, e) :: rest => (k, e.message) :: messageEntries rest
end

/-- Field value types of the embedding, covering the validator.FieldType
instantiations exercised by the claims: string, bool, and the signed and
unsigned integer families with their bit width. -/
inductive FTy where
  | fstr
  | fbool
  | fint (w : Nat)
  | fuint (w : Nat)

/-- Go type name of a field type, as printed by the %T verb. -/
def FTy.goName : FTy → String
  | .fstr => "string"
  | .fbool => "bool"
  | .fint w => "int" ++ Nat.repr w
  | .fuint w => "uint" ++ Nat.repr w

/-- Runtime values stored in result objects: typed primitives, the map-shaped
internal.Data / valueObject containers, typed primitive slices and slices of
result objects. -/
inductive Val where
  | vstr (s : String)
  | vbool (b : Bool)
  | vint (w : Nat) (n : Int)
  | vuint (w : Nat) (n : Int)
  | vobj (fields : List (String × Val))
  | varr (t : FTy) (elems : List Val)
  | varrObj (elems : List Val)

/-- JSON nodes as seen through gjson: number nodes keep their raw text, which
the integer coercion compares against the canonical re-serialization. -/
inductive JVal where
  | jstr (s : String)
  | jnum (raw : String)
  | jbool (b : Bool)
  | jnull
  | jarr (elems : List JVal)
  | jobj (fields : List (String × JVal))

/-- Raw document input of Schema.Validate: the empty string, a string that is
not valid JSON, or a parsed JSON value. -/
inductive JInput where
  | empty
  | invalid (raw : String)
  | val (j : JVal)

/-- Sentinel error validator.ErrTypeMismatch. -/
def errTypeMismatch : GoErr := .msg "type mismatch"

/-- Sentinel error validator.ErrIntegerOverflow. -/
def errIntegerOverflow : GoErr := .msg "integer overflow"

/-- Sentinel error validator.ErrRequired. -/
def errRequired : GoErr := .msg "is required but not found"

/-- Model of validator.OverflowError: fmt.Errorf("for type %T: %w", v, ErrIntegerOverflow). -/
def overflowError (t : FTy) : GoErr :=
  .wrap ("for type " ++ t.goName ++ ": ") errIntegerOverflow ""

/-- gjson type name of a node, as printed by res.Type in mismatch messages. -/
def jTypeName : JVal → String
  | .jstr _ => "String"
  | .jnum _ => "Number"
  | .jbool true => "True"
  | .jbool false => "False"
  | .jnull => "Null"
  | .jarr _ => "JSON"
  | .jobj _ => "JSON"

/-- Default mismatch error of typedJson: fmt.Errorf("%w: expected %T but got
raw type %s", ErrTypeMismatch, zero, res.Type). -/
def mismatchError (t : FTy) (node : JVal) : GoErr :=
  .wrap "" errTypeMismatch (": expected " ++ t.goName ++ " but got raw type " ++ jTypeName node)

/-- Model of gjson's Result.Int() on a number node, as observed by typedJson.
When the raw text is a decimal integer within the int64 range this is its
value; outside that range gjson saturates to an int64-range value, modelled
here by clamping (typedJson only compares the re-serialization with the raw
text, and any in-range substitute differs from an out-of-range raw, so the
observable behaviour does not depend on the saturation value); for non-integer
raws it is some truncation, modelled by 0 (again only the re-serialization
mismatch is observable). -/
def gjsonInt (raw : String) : Int :=
  match decInt? raw with
  | some m => max (-(2 ^ 63)) (min (2 ^ 63 - 1) m)
  | none => 0

/-- Model of gjson's Result.Uint() on a number node, under the same
observability argument as gjsonInt. -/
def gjsonUint (raw : String) : Int :=
  match decNat? raw with
  | some m => min (m : Int) (2 ^ 64 - 1)
  | none => 0

/-- Model of typedJson: conversion of one gjson node into one target field
type with the strict format and overflow rules of view/vo.go. -/
def typedJson (t : FTy) (node : JVal) : Except GoErr Val :=
  match t with
  | .fstr =>
    match node with
    | .jstr s => .ok (.vstr s)
    | _ => .error (mismatchError t node)
  | .fbool =>
    match node with
    | .jbool b => .ok (.vbool b)
    | _ => .error (mismatchError t node)
  | .fint w =>
    match node with
    | .jnum raw =>
      let v := gjsonInt raw
      if toString v ≠ raw then
        if containsChar '.' raw then
          .error (.wrap "" errTypeMismatch
            (": cannot assign float value " ++ raw ++ " to integer type"))
        else .error (overflowError t)
      else if v < -(2 ^ (w - 1)) ∨ 2 ^ (w - 1) - 1 < v then .error (overflowError t)
      else .ok (.vint w v)
    | _ => .error (mismatchError t node)
  | .fuint w =>
    match node with
    | .jnum raw =>
      if containsChar '-' raw then .error (overflowError t)
      else
        let v := gjsonUint raw
        if toString v ≠ raw then
          if containsChar '.' raw then
            .error (.wrap "" errTypeMismatch
              (": cannot assign float value " ++ raw ++ " to unsigned integer type"))
          else .error (overflowError t)
        else if 2 ^ w - 1 < v then .error (overflowError t)
        else .ok (.vuint w v)
    | _ => .error (mismatchError t node)

/-- Model of strconv.ParseBool, used by ParseStringTo for bool targets. -/
def parseBool? (s : String) : Option Bool :=
  if s = "1" ∨ s = "t" ∨ s = "T" ∨ s = "TRUE" ∨ s = "true" ∨ s = "True" then some true
  else if s = "0" ∨ s = "f" ∨ s = "F" ∨ s = "FALSE" ∨ s = "false" ∨ s = "False" then some false
  else none

/-- Model of strconv.ParseUint base 10: digits only, no sign, int64-style
range errors reported as failure by the caller. -/
def parseUint? (s : String) : Option Int :=
  match decNat? s with
  | some m => if (m : Int) > 2 ^ 64 - 1 then none else some (m : Int)
  | none => none

/-- Model of validator.ParseStringTo: conversion of one overlay string into
one target field type. -/
def typedString (t : FTy) (s : String) : Except GoErr Val :=
  match t with
  | .fstr => .ok (.vstr s)
  | .fbool =>
    match parseBool? s with
    | some b => .ok (.vbool b)
    | none => .error (.msg ("could not parse '" ++ s ++ "' as bool: parse error"))
  | .fint w =>
    match atoi? s with
    | none => .error (.msg ("could not parse '" ++ s ++ "' as int: parse error"))
    | some v =>
      if v < -(2 ^ (w - 1)) ∨ 2 ^ (w - 1) - 1 < v then .error (overflowError t)
      else .ok (.vint w v)
  | .fuint w =>
    match parseUint? s with
    | none => .error (.msg ("could not parse '" ++ s ++ "' as uint: parse error"))
    | some v =>
      if 2 ^ w - 1 < v then .error (overflowError t)
      else .ok (.vuint w v)

/-- Requested runtime types of the generic internal.Get, covering the getter
families of the ValueObject interface. -/
inductive GoTy where
  | anyT
  | strT
  | boolT
  | intT (w : Nat)
  | uintT (w : Nat)
  | objT
  | arrT (t : FTy)
  | arrObjT

/-- Decidable equality of field types, used by the slice type assertion. -/
def FTy.beq : FTy → FTy → Bool
  | .fstr, .fstr => true
  | .fbool, .fbool => true
  | .fint w, .fint w' => w == w'
  | .fuint w, .fuint w' => w == w'
  | _, _ => false

/-- Model of the Go runtime type assertion value.(T) succeeding. -/
def typeIs : GoTy → Val → Bool
  | .anyT, _ => true
  | .strT, .vstr _ => true
  | .boolT, .vbool _ => true
  | .intT w, .vint w' _ => w == w'
  | .uintT w, .vuint w' _ => w == w'
  | .objT, .vobj _ => true
  | .arrT t, .varr t' _ => t.beq t'
  | .arrObjT, .varrObj _ => true
  | _, _ => false

/-- Outcome of a lookup against the result object: a value, an empty result
(mo.None), or a panic of the Go code (lo.Assertf failure). -/
inductive GetOut where
  | found (v : Val)
  | absent
  | hardFail (m : String)

/-- Walk phase of internal.Get: traversal of the remaining path segments from
the current value. A plain map and a delegating ValueObject container are both
vobj here, since valueObject.Get delegates back to internal.Get over its
embedded Data; the Go nil check has no counterpart because the value domain
of the embedding contains no nil. -/
def walkGet (t : GoTy) : Val → List String → GetOut
  | cur, [] => if typeIs t cur then .found cur else .hardFail "field has wrong type"
  | .vobj m, part :: rest =>
    match m.lookup part with
    | none => .absent
    | some v => walkGet t v rest
  | .varr _ es, part :: rest =>
    (match atoi? part with
     | none => .hardFail "path part is not a valid integer index for a slice"
     | some i =>
       if i < 0 ∨ (es.length : Int) ≤ i then .hardFail "array bound exceed"
       else walkGet t (es.getD i.toNat (.vstr "")) rest)
  | .varrObj es, part :: rest =>
    (match atoi? part with
     | none => .hardFail "path part is not a valid integer index for a slice"
     | some i =>
       if i < 0 ∨ (es.length : Int) ≤ i then .hardFail "array bound exceed"
       else walkGet t (es.getD i.toNat (.vstr "")) rest)
  | _, _ :: _ => .absent

/-- Model of internal.Get: a verbatim hit on the full name (dotted qualified
keys included) is returned directly after the type assertion; otherwise the
name is split on '.' and walked from the top-level map. -/
def getPath (t : GoTy) (data : List (String × Val)) (name : String) : GetOut :=
  match data.lookup name with
  | some v => if typeIs t v then .found v else .hardFail "field has wrong type"
  | none => walkGet t (.vobj data) (splitOnDot name)

/-- Outcome of Data.Add: the updated object or a panic. -/
inductive AddOut where
  | ok (d : List (String × Val))
  | hardFail (m : String)

/-- Model of Data.Add: asserts the property is new, then that its name holds
no '.', then stores the value. -/
def dataAdd (d : List (String × Val)) (name : String) (v : Val) : AddOut :=
  if (d.lookup name).isSome then
    .hardFail ("xql: property '" ++ name ++ "' already exists")
  else if containsChar '.' name then
    .hardFail ("xql: property '" ++ name ++ "' contains '.'")
  else .ok (d ++ [(name, v)])

/-- Map write with overwrite, realizing object[key] = val on the Go map. -/
def insertOverwrite (d : List (String × Val)) (k : String) (v : Val) : List (String × Val) :=
  if d.any (fun kv => kv.1 = k) then d.map (fun kv => if kv.1 = k then (k, v) else kv)
  else d ++ [(k, v)]

/-- Descent of setNestedField over the dot-split parts of the storage key:
descend into an existing map-shaped value (a ValueObject is converted to its
entry map by the source, which leaves the same key → value graph), overwrite a
non-map value with a fresh map, and create missing intermediate maps. -/
def setNested (object : List (String × Val)) : List String → Val → List (String × Val)
  | [], _ => object
  | [last], v => insertOverwrite object last v
  | p :: rest, v =>
    match object.lookup p with
    | some (.vobj m) => insertOverwrite object p (.vobj (setNested m rest v))
    | some _ => insertOverwrite object p (.vobj (setNested [] rest v))
    | none => object ++ [(p, .vobj (setNested [] rest v))]

/-- Model of setNestedField: store a validated value under a possibly dotted
storage key, creating intermediate containers as needed. -/
def setNestedField (object : List (String × Val)) (key : String) (v : Val) :
    List (String × Val) :=
  setNested object (splitOnDot key) v

/-- View-layer field descriptor, modelling JSONField: qualified name, the
required / array / object markers, the embedded schema (hasEmbedded plays the
role of the nil check on the embedded pointer, embAllow its permissive flag),
the value type instantiating the generic parameter, and the attached
validators as semantic predicates over coerced values. -/
inductive VField where
  | mk (qualifiedName : String) (required : Bool) (array : Bool) (object : Bool)
      (embFields : List VField) (embAllow : Bool) (hasEmbedded : Bool)
      (ty : FTy) (validators : List (Val → Option GoErr))

def VField.qualifiedName : VField → String
  | .mk qn _ _ _ _ _ _ _ _ => qn

def VField.required : VField → Bool
  | .mk _ r _ _ _ _ _ _ _ => r

def VField.isArray : VField → Bool
  | .mk _ _ a _ _ _ _ _ _ => a

def VField.isObject : VField → Bool
  | .mk _ _ _ o _ _ _ _ _ => o

def VField.embFields : VField → List VField
  | .mk _ _ _ _ e _ _ _ _ => e

def VField.embAllow : VField → Bool
  | .mk _ _ _ _ _ ea _ _ _ => ea

def VField.hasEmbedded : VField → Bool
  | .mk _ _ _ _ _ _ he _ _ => he

def VField.ty : VField → FTy
  | .mk _ _ _ _ _ _ _ t _ => t

def VField.validators : VField → List (Val → Option GoErr)
  | .mk _ _ _ _ _ _ _ _ vs => vs

/-- Model of JSONField.Name: the last dot-separated segment of the qualified
name. -/
def VField.name (f : VField) : String := lastSegment f.qualifiedName

/-- Model of JSONField.UniqueName: the qualified name when present, the leaf
name otherwise. -/
def VField.uniqueName (f : VField) : String :=
  if f.qualifiedName ≠ "" then f.qualifiedName else f.name

/-- Schema: ordered field descriptors plus the permissive-unknown-fields flag. -/
structure VSchema where
  fields : List VField
  allowUnknownFields : Bool

/-- Model of gjson.Get(json, name) for the leaf names used by the field loop:
a plain key lookup on a top-level JSON object, not-exists otherwise. -/
def jsonGet : JInput → String → Option JVal
  | .val (.jobj fs), k => fs.lookup k
  | _, _ => none

/-- Model of gjson.Get(json, "@keys"): the top-level keys of an object
document in document order, empty otherwise. -/
def jsonKeys : JInput → List String
  | .val (.jobj fs) => fs.map (fun kv => kv.1)
  | _ => []

/-- Generic overwrite-insert on association lists, realizing m[k] = v. -/
def insertAssoc {α : Type} (d : List (String × α)) (k : String) (v : α) :
    List (String × α) :=
  if d.any (fun kv => kv.1 = k) then d.map (fun kv => if kv.1 = k then (k, v) else kv)
  else d ++ [(k, v)]

/-- Model of the voFields map built by lo.SliceToMap: leaf name → whether the
field is an array or an object (a later duplicate would overwrite). -/
def voFieldsOf : List VField → List (String × Bool)
  | [] => []
  | f :: rest => insertAssoc (voFieldsOf rest) f.name (f.isArray ∨ f.isObject)

/-- Inner overlay-merge loop of Schema.Validate over one urlParams map: record
a duplicate-across-maps conflict, then (in strict mode) an unknown-parameter
or parameter-mapped-to-embedded-object error, then store the pair. -/
def mergeParamsPair (declared : List (String × Bool)) (allow : Bool) :
    List (String × String) → ErrMap → List (String × String) →
    ErrMap × List (String × String)
  | [], errs, urlPair => (errs, urlPair)
  | (k, v) :: rest, errs, urlPair =>
    let errs1 :=
      if (urlPair.lookup k).isSome then
        errsAdd errs k (.msg ("duplicated url parameter '" ++ k ++ "'"))
      else errs
    let errs2 :=
      if allow then errs1
      else
        match declared.lookup k with
        | none => errsAdd errs1 k (.msg ("unknown url parameter '" ++ k ++ "'"))
        | some nested =>
          if nested then
            errsAdd errs1 k (.msg ("url parameter '" ++ k ++ "' is mapped to a embedded object"))
          else errs1
    mergeParamsPair declared allow rest errs2 (insertAssoc urlPair k v)

/-- Outer overlay-merge loop over the list of urlParams maps. -/
def mergeParamsList (declared : List (String × Bool)) (allow : Bool) :
    List (List (String × String)) → ErrMap → List (String × String) →
    ErrMap × List (String × String)
  | [], errs, urlPair => (errs, urlPair)
  | pair :: rest, errs, urlPair =>
    let r := mergeParamsPair declared allow pair errs urlPair
    mergeParamsList declared allow rest r.1 r.2

/-- Top-level JSON key check of Schema.Validate: a key also present in the
overlays is a conflict; in strict mode an undeclared key is an unknown json
field. -/
def jsonKeyCheck (allow : Bool) (declared : List (String × Bool))
    (urlPair : List (String × String)) : List String → ErrMap → ErrMap
  | [], errs => errs
  | k :: rest, errs =>
    let errs1 :=
      if (urlPair.lookup k).isSome then
        errsAdd errs k (.msg ("duplicate parameter in url and json '" ++ k ++ "'"))
      else errs
    let errs2 :=
      if allow then errs1
      else
        if (declared.lookup k).isSome then errs1
        else errsAdd errs1 k (.msg ("unknown json field '" ++ k ++ "'"))
    jsonKeyCheck allow declared urlPair rest errs2

/-- Flat merge of a nested aggregate's entries into the outer aggregator. -/
def mergeAggEntries (errs : ErrMap) : List (String × GoErr) → ErrMap
  | [] => errs
  | (k, e) :: rest => mergeAggEntries (errsAdd errs k e) rest

/-- Error-merging step of the Schema.Validate field loop: a failure that
unwraps (errors.As) to a validationError has its entries merged flat;
any other failure is recorded under the field's leaf name. -/
def mergeFieldErr (errs : ErrMap) (name : String) (e : GoErr) : ErrMap :=
  match asAgg e with
  | some es => mergeAggEntries errs es
  | none => errsAdd errs name e

/-- Validator run of the scalar paths: stop at the first failing validator. -/
def firstValidatorErr (v : Val) : List (Val → Option GoErr) → Option GoErr
  | [] => none
  | f :: rest =>
    match f v with
    | some e => some e
    | none => firstValidatorErr v rest

/-- Validator run of the array-of-primitives path: every failing validator
reports (under the same element key, so the last one wins), no stop. -/
def runValidatorsAll (key : String) (v : Val) :
    List (Val → Option GoErr) → ErrMap → ErrMap
  | [], errs => errs
  | f :: rest, errs =>
    runValidatorsAll key v rest
      (match f v with
       | some e => errsAdd errs key e
       | none => errs)

/-- Element key of per-index array errors: field[index]. -/
def arrKey (name : String) (i : Nat) : String := name ++ "[" ++ Nat.repr i ++ "]"

/-- Scalar fallback of JSONField.validate: coercion then validators, each
failure wrapped with the field-name context. -/
def scalarValidate (f : VField) (node : JVal) : Except GoErr Val :=
  match typedJson f.ty node with
  | .error e => .error (.wrap ("field '" ++ f.name ++ "': ") e "")
  | .ok v =>
    match firstValidatorErr v f.validators with
    | some e => .error (.wrap ("field '" ++ f.name ++ "': ") e "")
    | none => .ok v

/-- Model of JSONField.validateRaw: overlay-string coercion then validators,
failures wrapped with the field-name context. -/
def validateRawField (f : VField) (s : String) : Except GoErr Val :=
  match typedString f.ty s with
  | .error e => .error (.wrap ("field '" ++ f.name ++ "': ") e "")
  | .ok v =>
    match firstValidatorErr v f.validators with
    | some e => .error (.wrap ("field '" ++ f.name ++ "': ") e "")
    | none => .ok v

/-- Element loop of the array-of-primitives subcase: coerce and validate every
element independently, record every offending index under field[index], and
collect an element value only while no error has been recorded so far. -/
def arrPrimLoop (name : String) (t : FTy) (valds : List (Val → Option GoErr)) :
    List JVal → Nat → ErrMap → List Val → ErrMap × List Val
  | [], _, errs, vals => (errs, vals)
  | e :: rest, i, errs, vals =>
    match typedJson t e with
    | .error er =>
      arrPrimLoop name t valds rest (i + 1) (errsAdd errs (arrKey name i) er) vals
    | .ok v =>
      let errs2 := runValidatorsAll (arrKey name i) v valds errs
      let vals2 := if errs2.isEmpty then vals ++ [v] else vals
      arrPrimLoop name t valds rest (i + 1) errs2 vals2

/-- Detection of the invalid-document case of Schema.Validate: the raw text
when len(json) > 0 and gjson.Valid(json) fails. -/
def docInvalidRaw : JInput → Option String
  | .invalid raw => some raw
  | _ => none

/-- Permissive-mode copy step: an unconsumed overlay key not already present
in the result object is stored verbatim as its raw string. -/
def copyUnknownParams (object : List (String × Val)) :
    List (String × String) → List (String × Val)
  | [] => object
  | (k, v) :: rest =>
    copyUnknownParams
      (if (object.lookup k).isSome then object else object ++ [(k, .vstr v)]) rest

mutual
/-- Model of JSONField.validate: embedded single object, array of objects,
array of primitives, or the scalar fallback. The Nat fuel is an artifact of
the embedding: the Go recursion terminates on the structure of the schema and
the document, and fuel only decreases on the recursive calls, so any fuel
larger than the recursion depth gives the function's semantics; exhaustion is
a distinguishable junk outcome no theorem relies on. -/
def validateField : Nat → VField → JVal → Except GoErr Val
  | 0, _, _ => .error (.msg "insufficient fuel")
  | Nat.succ fuel, f, node =>
    if f.isObject ∧ ¬ f.isArray then
      match runSchema fuel f.embFields f.embAllow (.val node) [] with
      | .error e => .error (.wrap ("field '" ++ f.name ++ "' validation failed, ") e "")
      | .ok v => .ok v
    else if f.isArray then
      match node with
      | .jarr elems =>
        if f.hasEmbedded then
          let r := arrObjLoop fuel f.embFields f.embAllow f.name elems 0 [] []
          if r.1.isEmpty then .ok (.varrObj r.2) else .error (.agg r.1)
        else
          let r := arrPrimLoop f.name f.ty f.validators elems 0 [] []
          if r.1.isEmpty then .ok (.varr f.ty r.2) else .error (.agg r.1)
      | _ =>
        .error (.msg ("dvo: field '" ++ f.name ++ "' expected a JSON array but got Clause"))
    else scalarValidate f node

/-- Element loop of the array-of-objects subcase: a non-object element is an
error; an element failure that is a single-entry aggregate is unwrapped to its
inner error; element successes collect only while no error has been seen. -/
def arrObjLoop : Nat → List VField → Bool → String → List JVal → Nat → ErrMap →
    List Val → ErrMap × List Val
  | 0, _, _, _, _, _, errs, vals => (errs, vals)
  | Nat.succ fuel, embF, embAllow, name, elems, i, errs, vals =>
    match elems with
    | [] => (errs, vals)
    | e :: rest =>
      match e with
      | .jobj fs =>
        match runSchema fuel embF embAllow (.val (.jobj fs)) [] with
        | .error er =>
          arrObjLoop fuel embF embAllow name rest (i + 1)
            (errsAdd errs (arrKey name i) (unwrapSingle er)) vals
        | .ok v =>
          arrObjLoop fuel embF embAllow name rest (i + 1) errs
            (if errs.isEmpty then vals ++ [v] else vals)
      | _ =>
        arrObjLoop fuel embF embAllow name rest (i + 1)
          (errsAdd errs (arrKey name i) (.msg "expected a JSON object but got Clause")) vals

/-- Field loop of Schema.Validate: locate each declared field's raw value
first in the JSON document, then in the merged overlays; a missing required
field is recorded; failures merge via mergeFieldErr; successes are stored
under the field's unique name. Fuel exhaustion leaves the state unchanged. -/
def fieldLoop : Nat → List VField → JInput → List (String × String) → ErrMap →
    List (String × Val) → ErrMap × List (String × Val)
  | 0, _, _, _, errs, object => (errs, object)
  | Nat.succ fuel, fs, doc, urlPair, errs, object =>
    match fs with
    | [] => (errs, object)
    | f :: rest =>
      match jsonGet doc f.name with
      | none =>
        match urlPair.lookup f.name with
        | none =>
          fieldLoop fuel rest doc urlPair
            (if f.required then errsAdd errs f.name (.wrap (f.name ++ " ") errRequired "")
             else errs) object
        | some uv =>
          match validateRawField f uv with
          | .error e => fieldLoop fuel rest doc urlPair (mergeFieldErr errs f.name e) object
          | .ok v => fieldLoop fuel rest doc urlPair errs (setNestedField object f.uniqueName v)
      | some node =>
        match validateField fuel f node with
        | .error e => fieldLoop fuel rest doc urlPair (mergeFieldErr errs f.name e) object
        | .ok v => fieldLoop fuel rest doc urlPair errs (setNestedField object f.uniqueName v)

/-- Model of Schema.Validate: reject an invalid document, run the structural
phase (overlay merge and top-level key checks) and fail first on any conflict,
then run the field phase, then in permissive mode copy unconsumed overlay
keys, and succeed iff the aggregator stayed empty. -/
def runSchema : Nat → List VField → Bool → JInput → List (List (String × String)) →
    Except GoErr Val
  | 0, _, _, _, _ => .error (.msg "insufficient fuel")
  | Nat.succ fuel, fs, allow, doc, ps =>
    match docInvalidRaw doc with
    | some raw => .error (.msg ("invalid json " ++ raw))
    | none =>
      let declared := voFieldsOf fs
      let merged := mergeParamsList declared allow ps [] []
      let errs1 := jsonKeyCheck allow declared merged.2 (jsonKeys doc) merged.1
      if ¬ errs1.isEmpty then .error (.agg errs1)
      else
        let r := fieldLoop fuel fs doc merged.2 errs1 []
        let object2 := if allow then copyUnknownParams r.2 merged.2 else r.2
        if ¬ r.1.isEmpty then .error (.agg r.1) else .ok (.vobj object2)
end

/-- Entry point pairing runSchema with the schema record, and returning the
receiver state after the call: the method body of Schema.Validate contains no
write to the receiver, so the final receiver state is the initial one. -/
def schemaValidate (fuel : Nat) (s : VSchema) (doc : JInput)
    (ps : List (List (String × String))) : Except GoErr Val × VSchema :=
  (runSchema fuel s.fields s.allowUnknownFields doc ps, s)

mutual
/-- Recursive walker of valueObject.FlatMap: a map-shaped value recurses into
its entries with dot-extended prefixes; any other value (arrays and scalars
included) is stored as-is under the accumulated prefix, except under the empty
prefix. -/
def flatWalk (out : List (String × Val)) (pre : String) : Val → List (String × Val)
  | .vobj fs => flatFold out pre fs
  | v => if pre = "" then out else insertOverwrite out pre v
/-- Entry iteration of the walker over a map-shaped value. -/
def flatFold (out : List (String × Val)) (pre : String) :
    List (String × Val) → List (String × Val)
  | [] => out
  | (k, v) :: rest =>
    flatFold (flatWalk out (if pre = "" then k else pre ++ "." ++ k) v) pre rest
end

/-- Top loop of valueObject.FlatMap over the sorted field names, looking each
one up and walking its value. -/
def flatTop (d : List (String × Val)) :
    List String → List (String × Val) → List (String × Val)
  | [], out => out
  | k :: ks, out =>
    match d.lookup k with
    | some v => flatTop d ks (flatWalk out k v)
    | none => flatTop d ks out

/-- Model of valueObject.FlatMap: the flattened single-level map from
dot-joined leaf path to terminal value. -/
def flatMapOf (d : List (String × Val)) : List (String × Val) :=
  flatTop d ((d.map Prod.fst).insertionSort strLeP) []

theorem charsLe_total (a : List Char) : ∀ b, charsLe a b = true ∨ charsLe b a = true := by
  induction a with
  | nil => intro b; left; rfl
  | cons x xs ih =>
    intro b
    cases b with
    | nil => right; rfl
    | cons y ys =>
      by_cases h : x = y
      · subst h
        simpa [charsLe] using ih ys
      · have hne : y ≠ x := fun hyx => h hyx.symm
        rcases lt_trichotomy x y with hlt | heq | hgt
        · left; simp [charsLe, h, hlt]
        · exact absurd heq h
        · right; simp [charsLe, hne, hgt]

theorem charsLe_trans (a : List Char) :
    ∀ b c, charsLe a b = true → charsLe b c = true → charsLe a c = true := by
  induction a with
  | nil => intro b c _ _; rfl
  | cons x xs ih =>
    intro b c hab hbc
    cases b with
    | nil => simp [charsLe] at hab
    | cons y ys =>
      cases c with
      | nil => simp [charsLe] at hbc
      | cons z zs =>
        by_cases hxy : x = y <;> by_cases hyz : y = z
        · subst hxy; subst hyz
          simp [charsLe] at hab hbc ⊢
          exact ih ys zs hab hbc
        · subst hxy
          simp only [charsLe, if_neg hyz] at hbc
          have hlt : x < z := by simpa using hbc
          simp [charsLe, hyz, hlt]
        · subst hyz
          simp only [charsLe, if_neg hxy] at hab
          have hlt : x < y := by simpa using hab
          simp [charsLe, hxy, hlt]
        · simp only [charsLe, if_neg hxy] at hab
          simp only [charsLe, if_neg hyz] at hbc
          have hab' : x < y := by simpa using hab
          have hbc' : y < z := by simpa using hbc
          have hxz : x < z := lt_trans hab' hbc'
          have hne : x ≠ z := ne_of_lt hxz
          simp [charsLe, hne, hxz]

theorem charsLe_antisymm (a : List Char) :
    ∀ b, charsLe a b = true → charsLe b a = true → a = b := by
  induction a with
  | nil =>
    intro b _ hba
    cases b with
    | nil => rfl
    | cons y ys => simp [charsLe] at hba
  | cons x xs ih =>
    intro b hab hba
    cases b with
    | nil => simp [charsLe] at hab
    | cons y ys =>
      by_cases h : x = y
      · subst h
        simp [charsLe] at hab hba
        rw [ih ys hab hba]
      · have hne : y ≠ x := fun hyx => h hyx.symm
        simp only [charsLe, if_neg h] at hab
        simp only [charsLe, if_neg hne] at hba
        have hab' : x < y := by simpa using hab
        have hba' : y < x := by simpa using hba
        exact absurd (lt_trans hab' hba') (lt_irrefl x)

theorem string_data_eq {a b : String} (h : a.data = b.data) : a = b := by
  cases a; cases b; exact congrArg String.mk h

instance : IsTotal String strLeP :=
  ⟨fun a b => charsLe_total a.data b.data⟩

instance : IsTrans String strLeP :=
  ⟨fun a b c => charsLe_trans a.data b.data c.data⟩

instance : IsAntisymm String strLeP :=
  ⟨fun a b hab hba => string_data_eq (charsLe_antisymm a.data b.data hab hba)⟩

theorem perm_map_fst_nodup {α : Type} {l l' : List (String × α)} (hp : l.Perm l')
    (hnd : (l.map Prod.fst).Nodup) : (l'.map Prod.fst).Nodup :=
  ((hp.map Prod.fst).nodup_iff).mp hnd

theorem perm_lookup_eq {α : Type} {l l' : List (String × α)} (hp : l.Perm l')
    (hnd : (l.map Prod.fst).Nodup) : ∀ k, l.lookup k = l'.lookup k := by
  induction hp with
  | nil => intro k; rfl
  | cons x hpl ih =>
    intro k
    simp only [List.lookup]
    cases hk : k == x.1
    · simp only [List.map_cons, List.nodup_cons] at hnd
      exact ih hnd.2 k
    · rfl
  | swap x y l =>
    intro k
    have hyx : y.1 ≠ x.1 := by
      simp only [List.map_cons, List.nodup_cons, List.mem_cons] at hnd
      exact fun h => hnd.1 (Or.inl h)
    by_cases hky : k = y.1 <;> by_cases hkx : k = x.1
    · exact absurd (hky.symm.trans hkx) hyx
    · have hk1 : (k == y.1) = true := by simpa using hky
      have hk2 : (k == x.1) = false := by simpa using hkx
      simp only [List.lookup, hk1, hk2]
    · have hk1 : (k == y.1) = false := by simpa using hky
      have hk2 : (k == x.1) = true := by simpa using hkx
      simp only [List.lookup, hk1, hk2]
    · have hk1 : (k == y.1) = false := by simpa using hky
      have hk2 : (k == x.1) = false := by simpa using hkx
      simp only [List.lookup, hk1, hk2]
  | trans h₁ h₂ ih₁ ih₂ =>
    intro k
    rw [ih₁ hnd k]
    exact ih₂ (perm_map_fst_nodup h₁ hnd) k

/-- C10: Data.Add panics if a property with the given name already exists or
if the name contains a '.' character; otherwise it stores the value under the
name, so keys added through Add are dot-free and never silently overwritten. -/
theorem c10_dataAdd (d : List (String × Val)) (name : String) (v : Val) :
    ((d.lookup name).isSome = true →
      dataAdd d name v = .hardFail ("xql: property '" ++ name ++ "' already exists"))
  ∧ ((d.lookup name).isSome = false → containsChar '.' name = true →
      dataAdd d name v = .hardFail ("xql: property '" ++ name ++ "' contains '.'"))
  ∧ ((d.lookup name).isSome = false → containsChar '.' name = false →
      dataAdd d name v = .ok (d ++ [(name, v)])) := by
  refine ⟨fun h => ?_, fun h1 h2 => ?_, fun h1 h2 => ?_⟩
  · simp [dataAdd, h]
  · simp [dataAdd, h1, h2]
  · simp [dataAdd, h1, h2]

/-- Witness for C10 at concrete inputs. -/
theorem c10_dataAdd_witness :
    dataAdd [("a", .vstr "1")] "a" (.vstr "2") = .hardFail "xql: property 'a' already exists"
  ∧ dataAdd [("a", .vstr "1")] "b.c" (.vstr "2") = .hardFail "xql: property 'b.c' contains '.'"
  ∧ dataAdd [("a", .vstr "1")] "b" (.vstr "2") = .ok [("a", .vstr "1"), ("b", .vstr "2")] :=
  ⟨(c10_dataAdd _ _ _).1 (by rfl),
   (c10_dataAdd _ _ _).2.1 (by rfl) (by rfl),
   (c10_dataAdd _ _ _).2.2 (by rfl) (by rfl)⟩

/-- C3: for a signed integer target of width N the JSON number 2^(N-1) is
rejected as overflow and 2^(N-1)-1 accepted; for an unsigned target -1 is
rejected and 0 accepted; and a leading '-' on the raw text of an unsigned
coercion is reported as overflow, not as a format error. -/
theorem c3_integer_boundaries (w : Nat) (hw : w = 8 ∨ w = 16 ∨ w = 32 ∨ w = 64) :
    typedJson (.fint w) (.jnum (toString (2 ^ (w - 1) : Int))) =
      .error (overflowError (.fint w))
  ∧ typedJson (.fint w) (.jnum (toString (2 ^ (w - 1) - 1 : Int))) =
      .ok (.vint w (2 ^ (w - 1) - 1))
  ∧ typedJson (.fuint w) (.jnum "-1") = .error (overflowError (.fuint w))
  ∧ typedJson (.fuint w) (.jnum "0") = .ok (.vuint w 0)
  ∧ (∀ raw : String, raw.data.head? = some '-' →
      typedJson (.fuint w) (.jnum raw) = .error (overflowError (.fuint w))) := by
  have hlead : ∀ raw : String, raw.data.head? = some '-' →
      typedJson (.fuint w) (.jnum raw) = .error (overflowError (.fuint w)) := by
    intro raw hr
    have hc : containsChar '-' raw = true := by
      cases hd : raw.data with
      | nil => rw [hd] at hr; cases hr
      | cons c t =>
        rw [hd] at hr
        have : c = '-' := by simpa using hr
        subst this
        simp [containsChar, hd]
    simp [typedJson, hc]
  obtain h | h | h | h := hw <;> subst h <;>
    exact ⟨by rfl, by rfl, by rfl, by rfl, hlead⟩

/-- Witness for C3 at width 8 and a concrete leading-minus raw text. -/
theorem c3_integer_boundaries_witness :
    typedJson (.fint 8) (.jnum "128") = .error (overflowError (.fint 8))
  ∧ typedJson (.fuint 8) (.jnum "-7") = .error (overflowError (.fuint 8)) :=
  ⟨(c3_integer_boundaries 8 (Or.inl rfl)).1,
   (c3_integer_boundaries 8 (Or.inl rfl)).2.2.2.2 "-7" (by rfl)⟩

/-- C9: Validate is deterministic and side-effect-free on the Schema. The
embedding threads the receiver state through the call (schemaValidate returns
it unchanged, mirroring the absence of any write to the receiver in the
method body): repeating the call on the returned state yields the same result,
and fields and allowUnknownFields are unchanged. -/
theorem c9_validate_pure (fuel : Nat) (s : VSchema) (doc : JInput)
    (ps : List (List (String × String))) :
    (schemaValidate fuel s doc ps).2 = s
  ∧ (schemaValidate fuel s doc ps).2.fields = s.fields
  ∧ (schemaValidate fuel s doc ps).2.allowUnknownFields = s.allowUnknownFields
  ∧ (schemaValidate fuel (schemaValidate fuel s doc ps).2 doc ps).1 =
      (schemaValidate fuel s doc ps).1 :=
  ⟨rfl, rfl, rfl, rfl⟩

/-- Line-separated rendering that C4 describes, stated from the spec's words
for comparison with the engine's renderAgg. -/
def specLineRender (es : List (String × String)) : String :=
  "validation failed with the following errors:" ++
    String.join (((es.map Prod.fst).insertionSort strLeP).map
      (fun k => "\n- " ++ k ++ ": " ++ lookupD es k))

/-- C4 counterexample: on a two-entry aggregate the engine's rendering is not
the newline-separated rendering the claim describes, and it contains no
newline at all, so the entries are not each on their own line. -/
theorem c4_not_line_separated :
    renderAgg [("a", "x"), ("b", "y")] ≠ specLineRender [("a", "x"), ("b", "y")]
  ∧ (renderAgg [("a", "x"), ("b", "y")]).data.contains '\n' = false := by
  constructor
  · decide
  · decide

/-- C4 (amended): the aggregated error renders deterministically (any
reordering of the entries with the same keys renders identically), as the
header directly followed by one "- path: message" segment per entry in
ascending path order, with no separator between segments. -/
theorem c4_agg_error_rendering (es es' : List (String × String))
    (hperm : es.Perm es') (hnd : (es.map Prod.fst).Nodup) :
    renderAgg es = renderAgg es'
  ∧ (es ≠ [] → ∃ ks, ks.Perm (es.map Prod.fst) ∧ List.Sorted strLeP ks ∧
      renderAgg es = "validation failed with the following errors:" ++
        String.join (ks.map (fun k => "- " ++ k ++ ": " ++ lookupD es k))) := by
  constructor
  · unfold renderAgg
    have hlen : es.length = es'.length := hperm.length_eq
    have hempty : es.isEmpty = es'.isEmpty := by
      cases es <;> cases es' <;> simp_all
    rw [hempty]
    by_cases he : es'.isEmpty
    · simp [he]
    · have hkeys : (es.map Prod.fst).insertionSort strLeP =
          (es'.map Prod.fst).insertionSort strLeP :=
        List.eq_of_perm_of_sorted
          ((List.perm_insertionSort _ _).trans
            ((hperm.map Prod.fst).trans (List.perm_insertionSort _ _).symm))
          (List.sorted_insertionSort _ _) (List.sorted_insertionSort _ _)
      have hlook : ∀ k, lookupD es k = lookupD es' k := by
        intro k
        unfold lookupD
        rw [perm_lookup_eq hperm hnd k]
      simp only [he, if_false, hkeys]
      have heq : (List.map (fun k => "- " ++ k ++ ": " ++ lookupD es k)
            ((es'.map Prod.fst).insertionSort strLeP)) =
          (List.map (fun k => "- " ++ k ++ ": " ++ lookupD es' k)
            ((es'.map Prod.fst).insertionSort strLeP)) :=
        List.map_congr_left (fun k _ => by rw [hlook k])
      rw [heq]
  · intro hne
    refine ⟨(es.map Prod.fst).insertionSort strLeP,
      List.perm_insertionSort _ _, List.sorted_insertionSort _ _, ?_⟩
    have : es.isEmpty = false := by cases es <;> simp_all
    simp [renderAgg, this]

/-- Witness for C4 on a concrete permutation with distinct keys. -/
theorem c4_agg_error_rendering_witness :
    renderAgg [("b", "y"), ("a", "x")] = renderAgg [("a", "x"), ("b", "y")] :=
  (c4_agg_error_rendering [("b", "y"), ("a", "x")] [("a", "x"), ("b", "y")]
    (by decide) (by decide)).1

/-- Field "id" of Scenario D: a required scalar string field. -/
def idField : VField := .mk "id" true false false [] false false .fstr []

/-- Scenario D document {"id":"1","extra":"x"}. -/
def scenarioDDoc : JInput := .val (.jobj [("id", .jstr "1"), ("extra", .jstr "x")])

/-- C5 counterexample: permissive validation of {"id":"1","extra":"x"} against
Schema{id} succeeds, but the unknown JSON key is not copied into the result:
Get("extra") is empty rather than "x". Only overlay keys are copied. -/
theorem c5_permissive_json_extra_dropped :
    runSchema 10 [idField] true scenarioDDoc [] = .ok (.vobj [("id", .vstr "1")])
  ∧ getPath .strT [("id", .vstr "1")] "extra" = .absent :=
  ⟨rfl, rfl⟩

/-- C5 (amended): strict mode rejects the unknown JSON key 'extra' with
exactly the claimed message; permissive mode accepts the same input but drops
the unknown JSON key (Get("extra") is empty); an unconsumed overlay key, by
contrast, is copied verbatim and Get("extra") then returns "x". -/
theorem c5_unknown_field_handling :
    runSchema 10 [idField] false scenarioDDoc [] =
      .error (.agg [("extra", .msg "unknown json field 'extra'")])
  ∧ runSchema 10 [idField] true scenarioDDoc [] = .ok (.vobj [("id", .vstr "1")])
  ∧ getPath .strT [("id", .vstr "1")] "extra" = .absent
  ∧ runSchema 10 [idField] true (.val (.jobj [("id", .jstr "1")])) [[("extra", "x")]] =
      .ok (.vobj [("id", .vstr "1"), ("extra", .vstr "x")])
  ∧ getPath .strT [("id", .vstr "1"), ("extra", .vstr "x")] "extra" =
      .found (.vstr "x") :=
  ⟨rfl, c5_permissive_json_extra_dropped.1, c5_permissive_json_extra_dropped.2, rfl, rfl⟩

/-- Scalar (non-container) values of the result-object domain. -/
def isScalarV : Val → Bool
  | .vstr _ => true
  | .vbool _ => true
  | .vint _ _ => true
  | .vuint _ _ => true
  | _ => false

/-- C7: resolution behaviour of internal.Get. A verbatim literal key (dotted
keys included) is returned directly, subject only to the runtime type
assertion; otherwise the path is split and walked, where a missing map key
and a scalar met with segments remaining give an empty result, while a
non-numeric or out-of-range index into an ordered sequence and a final type
mismatch are hard failures. -/
theorem c7_get_resolution (t : GoTy) (data : List (String × Val)) (name : String) :
    (∀ v, data.lookup name = some v →
      getPath t data name =
        (if typeIs t v then .found v else .hardFail "field has wrong type"))
  ∧ (data.lookup name = none →
      getPath t data name = walkGet t (.vobj data) (splitOnDot name))
  ∧ (∀ m part rest, List.lookup part m = none →
      walkGet t (.vobj m) (part :: rest) = .absent)
  ∧ (∀ v part rest, isScalarV v = true → walkGet t v (part :: rest) = .absent)
  ∧ (∀ ft es part rest, atoi? part = none →
      walkGet t (.varr ft es) (part :: rest) =
        .hardFail "path part is not a valid integer index for a slice")
  ∧ (∀ ft es part rest i, atoi? part = some i → (i < 0 ∨ (es.length : Int) ≤ i) →
      walkGet t (.varr ft es) (part :: rest) = .hardFail "array bound exceed")
  ∧ (∀ v, walkGet t v [] =
      (if typeIs t v then .found v else .hardFail "field has wrong type"))
  ∧ getPath .strT [("items", .varrObj [.vobj [("id", .vstr "7")]])] "items.0.id" =
      .found (.vstr "7") := by
  refine ⟨fun v h => ?_, fun h => ?_, fun m part rest h => ?_, fun v part rest h => ?_,
    fun ft es part rest h => ?_, fun ft es part rest i h hb => ?_, fun v => ?_, rfl⟩
  · simp [getPath, h]
  · simp [getPath, h]
  · simp [walkGet, h]
  · cases v <;> simp_all [isScalarV] <;> rfl
  · simp [walkGet, h]
  · simp [walkGet, h, if_pos hb]
  · cases v <;> rfl

/-- Witness for C7: a dotted qualified-name key hit verbatim, and a missing
key resolving to the empty result. -/
theorem c7_get_resolution_witness :
    getPath .strT [("t.c", .vstr "v")] "t.c" =
      (if typeIs .strT (.vstr "v") then .found (.vstr "v")
       else .hardFail "field has wrong type")
  ∧ walkGet .strT (.vobj [("a", .vstr "v")]) ("b" :: []) = .absent :=
  ⟨(c7_get_resolution .strT [("t.c", .vstr "v")] "t.c").1 (.vstr "v") (by rfl),
   (c7_get_resolution .strT [] "b").2.2.1 [("a", .vstr "v")] "b" [] (by rfl)⟩

/-- Sentinel error xql.ErrLengthMin of the constraint library. -/
def errLengthMin : GoErr := .msg "length must be at least"

/-- Model of the MinLength validator of constraint.go. Go's len(str) is the
byte length, which coincides with the character count on the ASCII strings of
the scenarios; a non-string value cannot reach a string validator through the
typed Go API, so that branch is inert. -/
def minLengthValidator (m : Nat) : Val → Option GoErr := fun v =>
  match v with
  | .vstr s =>
    if s.data.length < m then some (.wrap "" errLengthMin (" " ++ Nat.repr m ++ " "))
    else none
  | _ => none

/-- Entries of an aggregated failure result, empty otherwise. -/
def errEntriesOf : Except GoErr Val → ErrMap
  | .error (.agg es) => es
  | _ => []

/-- Scenario E embedded field: required string "email" with MinLength 5. -/
def emailField : VField :=
  .mk "email" true false false [] false false .fstr [minLengthValidator 5]

/-- Scenario E outer field: embedded object "user". -/
def userField : VField := .mk "user" true false true [emailField] false true .fstr []

/-- Scenario E document {"user":{"email":"bad"}}. -/
def scenarioEDoc : JInput := .val (.jobj [("user", .jobj [("email", .jstr "bad")])])

/-- Error produced for the inner email field in Scenario E. -/
def emailErr : GoErr := .wrap "field 'email': " (.wrap "" errLengthMin " 5 ") ""

/-- Fields of the counterexample array-of-objects schema: two required
strings. -/
def aField : VField := .mk "a" true false false [] false false .fstr []

def bField : VField := .mk "b" true false false [] false false .fstr []

/-- Counterexample array-of-objects field "items". -/
def itemsField : VField :=
  .mk "items" true true true [aField, bField] false true .fstr []

/-- Counterexample document {"items":[{}]}. -/
def itemsDoc : JInput := .val (.jobj [("items", .jarr [.jobj []])])

/-- C6 counterexample: when an array element's embedded validation fails with
a two-entry aggregate, its entries are not merged flat into the outer
aggregator; the whole aggregate is recorded as the single entry items[0], and
the inner keys "a" and "b" do not appear in the outer aggregator. -/
theorem c6_array_multi_entry_not_flat :
    runSchema 10 [itemsField] false itemsDoc [] =
      .error (.agg [("items[0]",
        .agg [("a", .wrap "a " errRequired ""), ("b", .wrap "b " errRequired "")])])
  ∧ (errEntriesOf (runSchema 10 [itemsField] false itemsDoc [])).lookup "a" = none
  ∧ (errEntriesOf (runSchema 10 [itemsField] false itemsDoc [])).lookup "b" = none :=
  ⟨rfl, rfl, rfl⟩

/-- C6 (amended): a nested failure that is a single-entry aggregate is
unwrapped to its single inner error — in the array-element path by the
explicit single-entry extraction, in the Schema.Validate merge by the flat
merge, which for a single entry records exactly the inner (key, error) pair —
while a multi-entry aggregate is merged flat only by the Schema.Validate
merge; the array-element path records it whole under field[index].
Consequently Scenario E yields a single, non-double-wrapped error. -/
theorem c6_single_entry_unwrap (er : GoErr) :
    (∀ k e, asAgg er = some [(k, e)] → unwrapSingle er = e)
  ∧ (∀ es, asAgg er = some es → es.length ≠ 1 → unwrapSingle er = er)
  ∧ (∀ errs nm k e, asAgg er = some [(k, e)] →
      mergeFieldErr errs nm er = errsAdd errs k e)
  ∧ (∀ errs nm es, asAgg er = some es → mergeFieldErr errs nm er = mergeAggEntries errs es)
  ∧ (runSchema 10 [userField] false scenarioEDoc [] = .error (.agg [("email", emailErr)])
      ∧ (errEntriesOf (runSchema 10 [userField] false scenarioEDoc [])).length = 1
      ∧ asAgg emailErr = none) := by
  refine ⟨fun k e h => ?_, fun es h hlen => ?_, fun errs nm k e h => ?_,
    fun errs nm es h => ?_, ?_⟩
  · simp [unwrapSingle, h, mergeAggEntries]
  · rw [unwrapSingle, h]
    cases es with
    | nil => rfl
    | cons kv rest =>
      cases rest with
      | nil => simp at hlen
      | cons kv2 rest2 => rfl
  · simp [mergeFieldErr, h, mergeAggEntries]
  · simp [mergeFieldErr, h]
  · exact ⟨rfl, rfl, rfl⟩

/-- Witness for C6: the single-entry unwrap evaluated at a concrete aggregate. -/
theorem c6_single_entry_unwrap_witness :
    unwrapSingle (.agg [("k", .msg "m")]) = .msg "m"
  ∧ mergeFieldErr [] "outer" (.wrap "ctx " (.agg [("k", .msg "m")]) "") =
      errsAdd [] "k" (.msg "m") :=
  ⟨(c6_single_entry_unwrap (.agg [("k", .msg "m")])).1 "k" (.msg "m") (by rfl),
   (c6_single_entry_unwrap (.wrap "ctx " (.agg [("k", .msg "m")]) "")).2.2.1
     [] "outer" "k" (.msg "m") (by rfl)⟩

theorem anyKey_eq_lookup_isSome {α : Type} (m : List (String × α)) (k : String) :
    (m.any (fun kv => kv.1 = k)) = (m.lookup k).isSome := by
  induction m with
  | nil => rfl
  | cons kv rest ih =>
    rw [List.any_cons, List.lookup]
    by_cases h : kv.1 = k
    · have hb : (k == kv.1) = true := by simp [h]
      rw [hb]
      simp [h]
    · have hb : (k == kv.1) = false := by
        simp only [beq_eq_false_iff_ne, ne_eq]
        exact fun hk => h hk.symm
      rw [hb]
      simp [h, ih]

theorem lookup_map_overwrite {α : Type} (k : String) (v : α) :
    ∀ m : List (String × α), m.any (fun kv => kv.1 = k) = true →
      (m.map (fun kv => if kv.1 = k then (k, v) else kv)).lookup k = some v := by
  intro m
  induction m with
  | nil => intro h; cases h
  | cons kv rest ih =>
    intro h
    by_cases hk : kv.1 = k
    · have hhead : (if kv.1 = k then (k, v) else kv) = (k, v) := if_pos hk
      rw [List.map_cons, hhead]
      simp [List.lookup]
    · have h' : rest.any (fun kv => kv.1 = k) = true := by
        rw [List.any_cons] at h
        simpa [hk] using h
      have hhead : (if kv.1 = k then (k, v) else kv) = kv := if_neg hk
      have hb : (k == kv.1) = false := by
        have hne : ¬ k = kv.1 := fun hkk => hk hkk.symm
        simpa using hne
      rw [List.map_cons, hhead]
      simp only [List.lookup, hb]
      exact ih h'

theorem lookup_map_overwrite_ne {α : Type} (k k' : String) (v : α) (hne : k' ≠ k) :
    ∀ m : List (String × α),
      (m.map (fun kv => if kv.1 = k then (k, v) else kv)).lookup k' = m.lookup k' := by
  intro m
  induction m with
  | nil => rfl
  | cons kv rest ih =>
    by_cases hk : kv.1 = k
    · have hhead : (if kv.1 = k then (k, v) else kv) = (k, v) := if_pos hk
      have hb : (k' == k) = false := by simpa using hne
      have hb2 : (k' == kv.1) = false := by rw [hk]; exact hb
      rw [List.map_cons, hhead]
      simp only [List.lookup, hb, hb2]
      exact ih
    · have hhead : (if kv.1 = k then (k, v) else kv) = kv := if_neg hk
      rw [List.map_cons, hhead]
      cases hx : k' == kv.1
      · simp only [List.lookup, hx]
        exact ih
      · simp only [List.lookup, hx]

theorem lookup_append_right {α : Type} (k : String) (v : α) :
    ∀ m : List (String × α), (m.lookup k).isSome = false →
      (m ++ [(k, v)]).lookup k = some v := by
  intro m
  induction m with
  | nil => intro _; simp [List.lookup]
  | cons kv rest ih =>
    intro h
    simp only [List.lookup] at h
    rw [List.cons_append]
    cases hx : k == kv.1
    · rw [hx] at h
      simp only [List.lookup, hx]
      exact ih h
    · rw [hx] at h
      simp at h

theorem lookup_append_left {α : Type} (k k' : String) (v : α) (hne : k' ≠ k) :
    ∀ m : List (String × α), (m ++ [(k, v)]).lookup k' = m.lookup k' := by
  intro m
  induction m with
  | nil =>
    have hb : (k' == k) = false := by simpa using hne
    simp [List.lookup, hb]
  | cons kv rest ih =>
    rw [List.cons_append]
    cases hx : k' == kv.1
    · simp only [List.lookup, hx]
      exact ih
    · simp only [List.lookup, hx]

theorem insertAssoc_lookup_self {α : Type} (m : List (String × α)) (k : String) (v : α) :
    (insertAssoc m k v).lookup k = some v := by
  unfold insertAssoc
  by_cases hc : m.any (fun kv => kv.1 = k) = true
  · rw [if_pos hc]
    exact lookup_map_overwrite k v m hc
  · rw [if_neg hc]
    have hnone : (m.lookup k).isSome = false := by
      rw [← anyKey_eq_lookup_isSome m k]
      exact Bool.not_eq_true _ ▸ (by simpa using hc)
    exact lookup_append_right k v m hnone

theorem insertAssoc_lookup_ne {α : Type} (m : List (String × α)) (k k' : String) (v : α)
    (hne : k' ≠ k) : (insertAssoc m k v).lookup k' = m.lookup k' := by
  unfold insertAssoc
  by_cases hc : m.any (fun kv => kv.1 = k) = true
  · rw [if_pos hc]
    exact lookup_map_overwrite_ne k k' v hne m
  · rw [if_neg hc]
    exact lookup_append_left k k' v hne m

theorem insertAssoc_lookup_isSome_mono {α : Type} (m : List (String × α)) (k k' : String)
    (v : α) (h : (m.lookup k').isSome = true) :
    ((insertAssoc m k v).lookup k').isSome = true := by
  by_cases hk : k' = k
  · subst hk
    rw [insertAssoc_lookup_self]
    rfl
  · rw [insertAssoc_lookup_ne m k k' v hk]
    exact h

theorem insertAssoc_ne_nil {α : Type} (m : List (String × α)) (k : String) (v : α) :
    insertAssoc m k v ≠ [] := by
  intro h
  have := insertAssoc_lookup_self m k v
  rw [h] at this
  cases this

theorem insertAssoc_mem {α : Type} (m : List (String × α)) (k : String) (v : α)
    (kv' : String × α) (h : kv' ∈ insertAssoc m k v) : kv' ∈ m ∨ kv' = (k, v) := by
  unfold insertAssoc at h
  by_cases hc : m.any (fun kv => kv.1 = k) = true
  · rw [if_pos hc] at h
    rw [List.mem_map] at h
    obtain ⟨kv0, hm, heq⟩ := h
    by_cases hk : kv0.1 = k
    · right
      rw [← heq]
      simp [hk]
    · left
      rw [← heq]
      simpa [hk] using hm
  · rw [if_neg hc] at h
    rw [List.mem_append, List.mem_singleton] at h
    exact h

theorem insertAssoc_keys_nodup {α : Type} (m : List (String × α)) (k : String) (v : α)
    (h : (m.map Prod.fst).Nodup) : ((insertAssoc m k v).map Prod.fst).Nodup := by
  unfold insertAssoc
  by_cases hc : m.any (fun kv => kv.1 = k) = true
  · rw [if_pos hc]
    have hsame : (m.map (fun kv => if kv.1 = k then (k, v) else kv)).map Prod.fst =
        m.map Prod.fst := by
      rw [List.map_map]
      exact List.map_congr_left (fun kv _ => by by_cases hk : kv.1 = k <;> simp [hk])
    rw [hsame]
    exact h
  · rw [if_neg hc, List.map_append, List.nodup_append]
    refine ⟨h, by simp, ?_⟩
    intro a ha
    simp only [List.map_cons, List.map_nil, List.mem_singleton]
    intro hak
    subst hak
    obtain ⟨kv, hkv, hfst⟩ := List.mem_map.mp ha
    exact hc (List.any_eq_true.mpr ⟨kv, hkv, by simp [hfst]⟩)

theorem errsAdd_eq_insertAssoc (m : ErrMap) (k : String) (e : GoErr) :
    errsAdd m k e = insertAssoc m k e := rfl

/-- Failure of one array element: its coercion fails or some attached
validator rejects the coerced value. -/
def elemFails (t : FTy) (valds : List (Val → Option GoErr)) (e : JVal) : Bool :=
  match typedJson t e with
  | .error _ => true
  | .ok v => (firstValidatorErr v valds).isSome

/-- Coerced value of one array element (meaningful when coercion succeeds). -/
def elemVal (t : FTy) (e : JVal) : Val :=
  match typedJson t e with
  | .ok v => v
  | .error _ => .vstr ""

theorem runValidatorsAll_lookup_isSome_mono (key : String) (v : Val) (k' : String) :
    ∀ (valds : List (Val → Option GoErr)) (errs : ErrMap),
      (errs.lookup k').isSome = true →
      ((runValidatorsAll key v valds errs).lookup k').isSome = true := by
  intro valds
  induction valds with
  | nil => intro errs h; exact h
  | cons f rest ih =>
    intro errs h
    rw [runValidatorsAll]
    cases hf : f v with
    | none => exact ih errs h
    | some e => exact ih _ (insertAssoc_lookup_isSome_mono _ _ _ _ h)

theorem runValidatorsAll_none (key : String) (v : Val) :
    ∀ (valds : List (Val → Option GoErr)) (errs : ErrMap),
      firstValidatorErr v valds = none → runValidatorsAll key v valds errs = errs := by
  intro valds
  induction valds with
  | nil => intro errs _; rfl
  | cons f rest ih =>
    intro errs h
    rw [firstValidatorErr] at h
    rw [runValidatorsAll]
    cases hf : f v with
    | none =>
      rw [hf] at h
      exact ih errs h
    | some e =>
      rw [hf] at h
      cases h

theorem runValidatorsAll_lookup_isSome (key : String) (v : Val) :
    ∀ (valds : List (Val → Option GoErr)) (errs : ErrMap),
      (firstValidatorErr v valds).isSome = true →
      ((runValidatorsAll key v valds errs).lookup key).isSome = true := by
  intro valds
  induction valds with
  | nil => intro errs h; cases h
  | cons f rest ih =>
    intro errs h
    rw [runValidatorsAll]
    cases hf : f v with
    | none =>
      rw [firstValidatorErr, hf] at h
      exact ih errs h
    | some e =>
      refine runValidatorsAll_lookup_isSome_mono key v key rest _ ?_
      show ((insertAssoc errs key e).lookup key).isSome = true
      rw [insertAssoc_lookup_self]
      rfl

theorem runValidatorsAll_eq_nil_iff (key : String) (v : Val) :
    ∀ (valds : List (Val → Option GoErr)) (errs : ErrMap),
      (runValidatorsAll key v valds errs = []) ↔
        (errs = [] ∧ firstValidatorErr v valds = none) := by
  intro valds
  induction valds with
  | nil => intro errs; simp [runValidatorsAll, firstValidatorErr]
  | cons f rest ih =>
    intro errs
    rw [runValidatorsAll, firstValidatorErr]
    cases hf : f v with
    | none => exact ih errs
    | some e =>
      rw [ih _]
      constructor
      · rintro ⟨hnil, -⟩
        exact absurd hnil (insertAssoc_ne_nil errs key e)
      · rintro ⟨-, hnone⟩
        cases hnone

theorem runValidatorsAll_mem (key : String) (v : Val) :
    ∀ (valds : List (Val → Option GoErr)) (errs : ErrMap) (kv : String × GoErr),
      kv ∈ runValidatorsAll key v valds errs →
      kv ∈ errs ∨ (kv.1 = key ∧ (firstValidatorErr v valds).isSome = true) := by
  intro valds
  induction valds with
  | nil => intro errs kv h; exact Or.inl h
  | cons f rest ih =>
    intro errs kv h
    rw [runValidatorsAll] at h
    cases hf : f v with
    | none =>
      rw [hf] at h
      rcases ih errs kv h with hm | ⟨hk, hs⟩
      · exact Or.inl hm
      · exact Or.inr ⟨hk, by rw [firstValidatorErr, hf]; exact hs⟩
    | some e =>
      rw [hf] at h
      rcases ih _ kv h with hm | ⟨hk, _⟩
      · rcases insertAssoc_mem errs key e kv hm with hm2 | hkv
        · exact Or.inl hm2
        · exact Or.inr ⟨by rw [hkv], by rw [firstValidatorErr, hf]; rfl⟩
      · exact Or.inr ⟨hk, by rw [firstValidatorErr, hf]; rfl⟩

theorem runValidatorsAll_nodup (key : String) (v : Val) :
    ∀ (valds : List (Val → Option GoErr)) (errs : ErrMap),
      (errs.map Prod.fst).Nodup →
      ((runValidatorsAll key v valds errs).map Prod.fst).Nodup := by
  intro valds
  induction valds with
  | nil => intro errs h; exact h
  | cons f rest ih =>
    intro errs h
    rw [runValidatorsAll]
    cases hf : f v with
    | none => exact ih errs h
    | some e => exact ih _ (insertAssoc_keys_nodup _ _ _ h)

theorem arrPrimLoop_fst_indep (name : String) (t : FTy)
    (valds : List (Val → Option GoErr)) :
    ∀ (elems : List JVal) (i : Nat) (errs : ErrMap) (vals vals' : List Val),
      (arrPrimLoop name t valds elems i errs vals).1 =
        (arrPrimLoop name t valds elems i errs vals').1 := by
  intro elems
  induction elems with
  | nil => intro i errs vals vals'; rfl
  | cons e rest ih =>
    intro i errs vals vals'
    rw [arrPrimLoop, arrPrimLoop]
    cases ht : typedJson t e with
    | error er => exact ih _ _ _ _
    | ok v => exact ih _ _ _ _

theorem arrPrimLoop_lookup_isSome_mono (name : String) (t : FTy)
    (valds : List (Val → Option GoErr)) (k' : String) :
    ∀ (elems : List JVal) (i : Nat) (errs : ErrMap) (vals : List Val),
      (errs.lookup k').isSome = true →
      (((arrPrimLoop name t valds elems i errs vals).1).lookup k').isSome = true := by
  intro elems
  induction elems with
  | nil => intro i errs vals h; exact h
  | cons e rest ih =>
    intro i errs vals h
    rw [arrPrimLoop]
    cases ht : typedJson t e with
    | error er => exact ih _ _ _ (insertAssoc_lookup_isSome_mono _ _ _ _ h)
    | ok v => exact ih _ _ _ (runValidatorsAll_lookup_isSome_mono _ _ _ _ _ h)

theorem arrPrimLoop_eq_nil_iff (name : String) (t : FTy)
    (valds : List (Val → Option GoErr)) :
    ∀ (elems : List JVal) (i : Nat) (errs : ErrMap) (vals : List Val),
      ((arrPrimLoop name t valds elems i errs vals).1 = []) ↔
        (errs = [] ∧ ∀ e ∈ elems, elemFails t valds e = false) := by
  intro elems
  induction elems with
  | nil => intro i errs vals; simp [arrPrimLoop]
  | cons e rest ih =>
    intro i errs vals
    rw [arrPrimLoop]
    cases ht : typedJson t e with
    | error er =>
      rw [ih _ _ _]
      constructor
      · rintro ⟨hnil, -⟩
        exact absurd hnil (insertAssoc_ne_nil _ _ _)
      · rintro ⟨-, hall⟩
        have := hall e (List.mem_cons_self e rest)
        rw [elemFails, ht] at this
        cases this
    | ok v =>
      have hEF : elemFails t valds e = (firstValidatorErr v valds).isSome := by
        rw [elemFails, ht]
      rw [ih _ _ _, runValidatorsAll_eq_nil_iff]
      constructor
      · rintro ⟨⟨he, hv⟩, hall⟩
        refine ⟨he, ?_⟩
        intro e' he'
        rcases List.mem_cons.mp he' with heq | hmem
        · subst heq
          rw [hEF, hv]
          rfl
        · exact hall e' hmem
      · rintro ⟨he, hall⟩
        have h0 := hall e (List.mem_cons_self e rest)
        rw [hEF] at h0
        refine ⟨⟨he, ?_⟩, fun e' he' => hall e' (List.mem_cons_of_mem e he')⟩
        cases hfv : firstValidatorErr v valds
        · rfl
        · rw [hfv] at h0
          cases h0

theorem arrPrimLoop_failing_reported (name : String) (t : FTy)
    (valds : List (Val → Option GoErr)) :
    ∀ (elems : List JVal) (i : Nat) (errs : ErrMap) (vals : List Val)
      (j : Nat) (hj : j < elems.length),
      elemFails t valds (elems.get ⟨j, hj⟩) = true →
      (((arrPrimLoop name t valds elems i errs vals).1).lookup
        (arrKey name (i + j))).isSome = true := by
  intro elems
  induction elems with
  | nil => intro i errs vals j hj; cases hj
  | cons e rest ih =>
    intro i errs vals j hj hfail
    rw [arrPrimLoop]
    cases j with
    | zero =>
      rw [Nat.add_zero]
      cases ht : typedJson t e with
      | error er =>
        refine arrPrimLoop_lookup_isSome_mono name t valds _ rest _ _ _ ?_
        show ((insertAssoc errs (arrKey name i) er).lookup (arrKey name i)).isSome = true
        rw [insertAssoc_lookup_self]
        rfl
      | ok v =>
        have hfail0 : elemFails t valds e = true := hfail
        have hfv : (firstValidatorErr v valds).isSome = true := by
          rw [elemFails, ht] at hfail0
          simpa using hfail0
        refine arrPrimLoop_lookup_isSome_mono name t valds _ rest _ _ _ ?_
        exact runValidatorsAll_lookup_isSome _ _ _ _ hfv
    | succ j' =>
      have harith : i + (j' + 1) = (i + 1) + j' := by omega
      rw [harith]
      have hj' : j' < rest.length := Nat.lt_of_succ_lt_succ hj
      have hfail' : elemFails t valds (rest.get ⟨j', hj'⟩) = true := hfail
      cases ht : typedJson t e with
      | error er => exact ih _ _ _ j' hj' hfail'
      | ok v => exact ih _ _ _ j' hj' hfail'

theorem arrPrimLoop_mem (name : String) (t : FTy)
    (valds : List (Val → Option GoErr)) :
    ∀ (elems : List JVal) (i : Nat) (errs : ErrMap) (vals : List Val)
      (kv : String × GoErr), kv ∈ (arrPrimLoop name t valds elems i errs vals).1 →
      kv ∈ errs ∨ ∃ j, ∃ hj : j < elems.length,
        elemFails t valds (elems.get ⟨j, hj⟩) = true ∧ kv.1 = arrKey name (i + j) := by
  intro elems
  induction elems with
  | nil => intro i errs vals kv h; exact Or.inl h
  | cons e rest ih =>
    intro i errs vals kv h
    rw [arrPrimLoop] at h
    cases ht : typedJson t e with
    | error er =>
      rw [ht] at h
      rcases ih _ _ _ kv h with hm | ⟨j, hj, hf, hk⟩
      · rcases insertAssoc_mem errs (arrKey name i) er kv hm with hm2 | hkv
        · exact Or.inl hm2
        · refine Or.inr ⟨0, Nat.succ_pos _, ?_, ?_⟩
          · rw [List.get, elemFails, ht]
          · rw [hkv, Nat.add_zero]
      · refine Or.inr ⟨j + 1, Nat.succ_lt_succ hj, hf, ?_⟩
        rw [hk]
        congr 1
        omega
    | ok v =>
      rw [ht] at h
      rcases ih _ _ _ kv h with hm | ⟨j, hj, hf, hk⟩
      · rcases runValidatorsAll_mem _ _ _ _ kv hm with hm2 | ⟨hk, hs⟩
        · exact Or.inl hm2
        · refine Or.inr ⟨0, Nat.succ_pos _, ?_, ?_⟩
          · rw [List.get, elemFails, ht]
            exact hs
          · rw [hk, Nat.add_zero]
      · refine Or.inr ⟨j + 1, Nat.succ_lt_succ hj, hf, ?_⟩
        rw [hk]
        congr 1
        omega

theorem arrPrimLoop_nodup (name : String) (t : FTy)
    (valds : List (Val → Option GoErr)) :
    ∀ (elems : List JVal) (i : Nat) (errs : ErrMap) (vals : List Val),
      (errs.map Prod.fst).Nodup →
      (((arrPrimLoop name t valds elems i errs vals).1).map Prod.fst).Nodup := by
  intro elems
  induction elems with
  | nil => intro i errs vals h; exact h
  | cons e rest ih =>
    intro i errs vals h
    rw [arrPrimLoop]
    cases ht : typedJson t e with
    | error er => exact ih _ _ _ (insertAssoc_keys_nodup _ _ _ h)
    | ok v => exact ih _ _ _ (runValidatorsAll_nodup _ _ _ _ h)

theorem arrPrimLoop_success_values (name : String) (t : FTy)
    (valds : List (Val → Option GoErr)) :
    ∀ (elems : List JVal) (i : Nat) (errs : ErrMap) (vals : List Val),
      (arrPrimLoop name t valds elems i errs vals).1 = [] →
      (arrPrimLoop name t valds elems i errs vals).2 =
        vals ++ elems.map (elemVal t) := by
  intro elems
  induction elems with
  | nil => intro i errs vals _; simp [arrPrimLoop]
  | cons e rest ih =>
    intro i errs vals hnil
    rw [arrPrimLoop] at hnil ⊢
    cases ht : typedJson t e with
    | error er =>
      rw [ht] at hnil
      have := (arrPrimLoop_eq_nil_iff name t valds rest _ _ _).mp hnil
      exact absurd this.1 (insertAssoc_ne_nil _ _ _)
    | ok v =>
      rw [ht] at hnil
      have hnil' : (arrPrimLoop name t valds rest (i + 1)
          (runValidatorsAll (arrKey name i) v valds errs)
          (if (runValidatorsAll (arrKey name i) v valds errs).isEmpty then vals ++ [v]
           else vals)).1 = [] := hnil
      have hres := (arrPrimLoop_eq_nil_iff name t valds rest _ _ _).mp hnil'
      obtain ⟨herrs, hfv⟩ :=
        (runValidatorsAll_eq_nil_iff (arrKey name i) v valds errs).mp hres.1
      have hrv : runValidatorsAll (arrKey name i) v valds errs = errs :=
        runValidatorsAll_none _ _ _ _ hfv
      show (arrPrimLoop name t valds rest (i + 1)
          (runValidatorsAll (arrKey name i) v valds errs)
          (if (runValidatorsAll (arrKey name i) v valds errs).isEmpty then vals ++ [v]
           else vals)).2 = vals ++ List.map (elemVal t) (e :: rest)
      rw [hrv, herrs] at hnil' ⊢
      have hemp : (List.isEmpty ([] : ErrMap)) = true := rfl
      rw [hemp, if_pos rfl] at hnil' ⊢
      rw [ih _ _ _ hnil']
      have hev : elemVal t e = v := by rw [elemVal, ht]
      simp [hev]

/-- C2: for an array-of-scalar field whose node is a JSON array, every element
is coerced and validated independently with no short-circuiting: every
offending index j yields exactly one entry keyed field[j] (the aggregator's
keys are free of duplicates and every key is a field[j] of an offending j),
the overall result is an error iff at least one element failed, on success
the coerced elements collect in order, and the concrete 3-element array
failing at indices 0 and 2 yields exactly the two entries tags[0], tags[2]. -/
theorem c2_array_scalar (fuel : Nat) (qn : String) (t : FTy)
    (valds : List (Val → Option GoErr)) (elems : List JVal) :
    (validateField (fuel + 1) (VField.mk qn true true false [] false false t valds)
        (.jarr elems) =
      (if (arrPrimLoop (lastSegment qn) t valds elems 0 [] []).1.isEmpty
       then .ok (.varr t (arrPrimLoop (lastSegment qn) t valds elems 0 [] []).2)
       else .error (.agg (arrPrimLoop (lastSegment qn) t valds elems 0 [] []).1)))
  ∧ ((arrPrimLoop (lastSegment qn) t valds elems 0 [] []).1 = [] ↔
      ∀ e ∈ elems, elemFails t valds e = false)
  ∧ (∀ j (hj : j < elems.length), elemFails t valds (elems.get ⟨j, hj⟩) = true →
      (((arrPrimLoop (lastSegment qn) t valds elems 0 [] []).1).lookup
        (arrKey (lastSegment qn) j)).isSome = true)
  ∧ (∀ kv ∈ (arrPrimLoop (lastSegment qn) t valds elems 0 [] []).1,
      ∃ j, ∃ hj : j < elems.length, elemFails t valds (elems.get ⟨j, hj⟩) = true ∧
        kv.1 = arrKey (lastSegment qn) j)
  ∧ (((arrPrimLoop (lastSegment qn) t valds elems 0 [] []).1).map Prod.fst).Nodup
  ∧ ((arrPrimLoop (lastSegment qn) t valds elems 0 [] []).1 = [] →
      validateField (fuel + 1) (VField.mk qn true true false [] false false t valds)
        (.jarr elems) = .ok (.varr t (elems.map (elemVal t))))
  ∧ (errEntriesOf (validateField 1
        (VField.mk "tags" true true false [] false false (.fint 64) [])
        (.jarr [.jstr "a", .jnum "1", .jbool true]))).map Prod.fst =
      ["tags[0]", "tags[2]"] := by
  have hbridge : validateField (fuel + 1)
      (VField.mk qn true true false [] false false t valds) (.jarr elems) =
      (if (arrPrimLoop (lastSegment qn) t valds elems 0 [] []).1.isEmpty
       then .ok (.varr t (arrPrimLoop (lastSegment qn) t valds elems 0 [] []).2)
       else .error (.agg (arrPrimLoop (lastSegment qn) t valds elems 0 [] []).1)) := by
    rw [validateField]
    rfl
  refine ⟨hbridge, ?_, ?_, ?_, ?_, ?_, by rfl⟩
  · exact (arrPrimLoop_eq_nil_iff _ t valds elems 0 [] []).trans
      (by simp)
  · intro j hj hf
    have := arrPrimLoop_failing_reported (lastSegment qn) t valds elems 0 [] [] j hj hf
    rwa [Nat.zero_add] at this
  · intro kv hkv
    rcases arrPrimLoop_mem (lastSegment qn) t valds elems 0 [] [] kv hkv with hm | ⟨j, hj, hf, hk⟩
    · cases hm
    · exact ⟨j, hj, hf, by rwa [Nat.zero_add] at hk⟩
  · exact arrPrimLoop_nodup (lastSegment qn) t valds elems 0 [] [] (by simp)
  · intro hnil
    rw [hbridge, hnil]
    have := arrPrimLoop_success_values (lastSegment qn) t valds elems 0 [] [] hnil
    rw [this]
    rfl

/-- Witness for C2: the failing index 0 of the concrete array is reported
under tags[0]. -/
theorem c2_array_scalar_witness :
    (((arrPrimLoop "tags" (.fint 64) [] [.jstr "a", .jnum "1", .jbool true] 0 [] []).1).lookup
      "tags[0]").isSome = true :=
  (c2_array_scalar 0 "tags" (.fint 64) [] [.jstr "a", .jnum "1", .jbool true]).2.2.1
    0 (by decide) (by rfl)

theorem typedJson_error_asAgg (t : FTy) (node : JVal) :
    ∀ e, typedJson t node = .error e → asAgg e = none := by
  intro e h
  cases t <;> cases node <;> simp only [typedJson] at h <;>
    (try split_ifs at h) <;>
    (try cases h) <;> rfl

theorem typedString_error_asAgg (t : FTy) (s : String) :
    ∀ e, typedString t s = .error e → asAgg e = none := by
  intro e h
  cases t with
  | fstr => cases h
  | fbool =>
    rw [typedString] at h
    cases hp : parseBool? s <;> rw [hp] at h <;> (try cases h) <;> rfl
  | fint w =>
    rw [typedString] at h
    cases hp : atoi? s with
    | none =>
      rw [hp] at h
      cases h
      rfl
    | some v =>
      rw [hp] at h
      have h' : (if v < -(2 : Int) ^ (w - 1) ∨ (2 : Int) ^ (w - 1) - 1 < v then
          Except.error (overflowError (FTy.fint w)) else
          Except.ok (Val.vint w v) : Except GoErr Val) = Except.error e := h
      split_ifs at h' <;> (try cases h') <;> rfl
  | fuint w =>
    rw [typedString] at h
    cases hp : parseUint? s with
    | none =>
      rw [hp] at h
      cases h
      rfl
    | some v =>
      rw [hp] at h
      have h' : (if (2 : Int) ^ w - 1 < v then
          Except.error (overflowError (FTy.fuint w)) else
          Except.ok (Val.vuint w v) : Except GoErr Val) = Except.error e := h
      split_ifs at h' <;> (try cases h') <;> rfl

/-- Side condition of the amended C1 on the other fields: a scalar (neither
array nor object) field with a different leaf name whose validators never
produce an aggregated error (all constraint-library validators return plain
errors). -/
def scalarNonAgg (F g : VField) : Prop :=
  g.isArray = false ∧ g.isObject = false ∧ g.name ≠ F.name ∧
    ∀ vf ∈ g.validators, ∀ val er, vf val = some er → asAgg er = none

theorem firstValidatorErr_asAgg (v : Val) :
    ∀ (valds : List (Val → Option GoErr)),
      (∀ vf ∈ valds, ∀ val er, vf val = some er → asAgg er = none) →
      ∀ e, firstValidatorErr v valds = some e → asAgg e = none := by
  intro valds
  induction valds with
  | nil => intro _ e h; cases h
  | cons f rest ih =>
    intro hall e h
    rw [firstValidatorErr] at h
    cases hf : f v with
    | some e0 =>
      rw [hf] at h
      injection h with h2
      subst h2
      exact hall f (List.mem_cons_self f rest) v e0 hf
    | none =>
      rw [hf] at h
      exact ih (fun vf hm => hall vf (List.mem_cons_of_mem f hm)) e h

theorem scalarValidate_error_asAgg (g : VField) (node : JVal) (e : GoErr)
    (hv : ∀ vf ∈ g.validators, ∀ val er, vf val = some er → asAgg er = none)
    (h : scalarValidate g node = .error e) : asAgg e = none := by
  rw [scalarValidate] at h
  cases ht : typedJson g.ty node with
  | error e0 =>
    rw [ht] at h
    injection h with h2
    subst h2
    show asAgg e0 = none
    exact typedJson_error_asAgg _ _ _ ht
  | ok v =>
    rw [ht] at h
    have h' : (match firstValidatorErr v g.validators with
        | some e => Except.error (GoErr.wrap ("field '" ++ g.name ++ "': ") e "")
        | none => Except.ok v) = Except.error e := h
    cases hf : firstValidatorErr v g.validators with
    | some e0 =>
      rw [hf] at h'
      injection h' with h2
      subst h2
      show asAgg e0 = none
      exact firstValidatorErr_asAgg v g.validators hv e0 hf
    | none =>
      rw [hf] at h'
      cases h'

theorem validateRawField_error_asAgg (g : VField) (s : String) (e : GoErr)
    (hv : ∀ vf ∈ g.validators, ∀ val er, vf val = some er → asAgg er = none)
    (h : validateRawField g s = .error e) : asAgg e = none := by
  rw [validateRawField] at h
  cases ht : typedString g.ty s with
  | error e0 =>
    rw [ht] at h
    injection h with h2
    subst h2
    show asAgg e0 = none
    exact typedString_error_asAgg _ _ _ ht
  | ok v =>
    rw [ht] at h
    have h' : (match firstValidatorErr v g.validators with
        | some e => Except.error (GoErr.wrap ("field '" ++ g.name ++ "': ") e "")
        | none => Except.ok v) = Except.error e := h
    cases hf : firstValidatorErr v g.validators with
    | some e0 =>
      rw [hf] at h'
      injection h' with h2
      subst h2
      show asAgg e0 = none
      exact firstValidatorErr_asAgg v g.validators hv e0 hf
    | none =>
      rw [hf] at h'
      cases h'

theorem validateField_scalar (fuel : Nat) (g : VField) (node : JVal)
    (ha : g.isArray = false) (ho : g.isObject = false) :
    validateField (fuel + 1) g node = scalarValidate g node := by
  cases node <;>
    rw [validateField] <;>
    first
      | rw [if_neg (by simp [ha, ho]), if_neg (by simp [ha])]
      | (intro elems h; cases h)

theorem validateField_scalar_error_asAgg (fuel : Nat) (g : VField) (node : JVal)
    (e : GoErr) (ha : g.isArray = false) (ho : g.isObject = false)
    (hv : ∀ vf ∈ g.validators, ∀ val er, vf val = some er → asAgg er = none)
    (h : validateField fuel g node = .error e) : asAgg e = none := by
  cases fuel with
  | zero =>
    rw [validateField] at h
    injection h with h2
    subst h2
    rfl
  | succ fuel =>
    rw [validateField_scalar fuel g node ha ho] at h
    exact scalarValidate_error_asAgg g node e hv h

theorem mergeAggEntries_lookup_isSome_mono (k : String) :
    ∀ (es : List (String × GoErr)) (errs : ErrMap),
      (errs.lookup k).isSome = true →
      ((mergeAggEntries errs es).lookup k).isSome = true := by
  intro es
  induction es with
  | nil => intro errs h; exact h
  | cons kv rest ih =>
    intro errs h
    obtain ⟨k0, e0⟩ := kv
    rw [mergeAggEntries]
    exact ih _ (insertAssoc_lookup_isSome_mono _ _ _ _ h)

theorem mergeFieldErr_lookup_isSome_mono (errs : ErrMap) (name : String) (e : GoErr)
    (k : String) (h : (errs.lookup k).isSome = true) :
    ((mergeFieldErr errs name e).lookup k).isSome = true := by
  rw [mergeFieldErr]
  cases ha : asAgg e with
  | some es => exact mergeAggEntries_lookup_isSome_mono k es errs h
  | none => exact insertAssoc_lookup_isSome_mono _ _ _ _ h

theorem mergeFieldErr_nonagg (errs : ErrMap) (name : String) (e : GoErr)
    (h : asAgg e = none) : mergeFieldErr errs name e = errsAdd errs name e := by
  rw [mergeFieldErr, h]

theorem fieldLoop_cons_absent (fuel : Nat) (f : VField) (rest : List VField)
    (doc : JInput) (urlPair : List (String × String)) (errs : ErrMap)
    (object : List (String × Val))
    (hj : jsonGet doc f.name = none) (hu : urlPair.lookup f.name = none) :
    fieldLoop (fuel + 1) (f :: rest) doc urlPair errs object =
      fieldLoop fuel rest doc urlPair
        (if f.required then errsAdd errs f.name (.wrap (f.name ++ " ") errRequired "")
         else errs) object := by
  rw [fieldLoop, hj, hu]

theorem fieldLoop_cons_url (fuel : Nat) (f : VField) (rest : List VField)
    (doc : JInput) (urlPair : List (String × String)) (errs : ErrMap)
    (object : List (String × Val)) (uv : String)
    (hj : jsonGet doc f.name = none) (hu : urlPair.lookup f.name = some uv) :
    fieldLoop (fuel + 1) (f :: rest) doc urlPair errs object =
      match validateRawField f uv with
      | .error e => fieldLoop fuel rest doc urlPair (mergeFieldErr errs f.name e) object
      | .ok v => fieldLoop fuel rest doc urlPair errs (setNestedField object f.uniqueName v) := by
  rw [fieldLoop, hj, hu]

theorem fieldLoop_cons_json (fuel : Nat) (f : VField) (rest : List VField)
    (doc : JInput) (urlPair : List (String × String)) (errs : ErrMap)
    (object : List (String × Val)) (node : JVal)
    (hj : jsonGet doc f.name = some node) :
    fieldLoop (fuel + 1) (f :: rest) doc urlPair errs object =
      match validateField fuel f node with
      | .error e => fieldLoop fuel rest doc urlPair (mergeFieldErr errs f.name e) object
      | .ok v => fieldLoop fuel rest doc urlPair errs (setNestedField object f.uniqueName v) := by
  rw [fieldLoop, hj]

theorem fieldLoop_lookup_isSome_mono (k : String) :
    ∀ (fuel : Nat) (fs : List VField) (doc : JInput)
      (urlPair : List (String × String)) (errs : ErrMap)
      (object : List (String × Val)), (errs.lookup k).isSome = true →
      (((fieldLoop fuel fs doc urlPair errs object).1).lookup k).isSome = true := by
  intro fuel
  induction fuel with
  | zero => intro fs doc urlPair errs object h; exact h
  | succ fuel ih =>
    intro fs doc urlPair errs object h
    cases fs with
    | nil => exact h
    | cons f rest =>
      cases hj : jsonGet doc f.name with
      | none =>
        cases hu : urlPair.lookup f.name with
        | none =>
          rw [fieldLoop_cons_absent fuel f rest doc urlPair errs object hj hu]
          by_cases hrq : f.required = true
          · rw [if_pos hrq]
            exact ih _ _ _ _ _ (insertAssoc_lookup_isSome_mono _ _ _ _ h)
          · rw [if_neg hrq]
            exact ih _ _ _ _ _ h
        | some uv =>
          rw [fieldLoop_cons_url fuel f rest doc urlPair errs object uv hj hu]
          cases hv : validateRawField f uv with
          | error e => exact ih _ _ _ _ _ (mergeFieldErr_lookup_isSome_mono _ _ _ _ h)
          | ok v => exact ih _ _ _ _ _ h
      | some node =>
        rw [fieldLoop_cons_json fuel f rest doc urlPair errs object node hj]
        cases hv : validateField fuel f node with
        | error e => exact ih _ _ _ _ _ (mergeFieldErr_lookup_isSome_mono _ _ _ _ h)
        | ok v => exact ih _ _ _ _ _ h

theorem fieldLoop_required_isSome (F : VField) (hreq : F.required = true)
    (doc : JInput) (urlPair : List (String × String))
    (hjson : jsonGet doc F.name = none) (hurl : urlPair.lookup F.name = none) :
    ∀ (fs : List VField) (fuel : Nat) (errs : ErrMap) (object : List (String × Val)),
      F ∈ fs → fs.length < fuel →
      (((fieldLoop fuel fs doc urlPair errs object).1).lookup F.name).isSome = true := by
  intro fs
  induction fs with
  | nil => intro fuel errs object hmem; cases hmem
  | cons f rest ih =>
    intro fuel errs object hmem hlen
    cases fuel with
    | zero => cases hlen
    | succ fuel =>
      have hlen' : rest.length < fuel := by
        simp only [List.length_cons] at hlen
        omega
      rcases List.mem_cons.mp hmem with heq | hmem'
      · subst heq
        rw [fieldLoop_cons_absent fuel F rest doc urlPair errs object hjson hurl,
          if_pos hreq]
        refine fieldLoop_lookup_isSome_mono F.name fuel rest doc urlPair _ _ ?_
        show ((insertAssoc errs F.name (.wrap (F.name ++ " ") errRequired "")).lookup
          F.name).isSome = true
        rw [insertAssoc_lookup_self]
        rfl
      · cases hj : jsonGet doc f.name with
        | none =>
          cases hu : urlPair.lookup f.name with
          | none =>
            rw [fieldLoop_cons_absent fuel f rest doc urlPair errs object hj hu]
            by_cases hrq : f.required = true
            · rw [if_pos hrq]
              exact ih fuel _ _ hmem' hlen'
            · rw [if_neg hrq]
              exact ih fuel _ _ hmem' hlen'
          | some uv =>
            rw [fieldLoop_cons_url fuel f rest doc urlPair errs object uv hj hu]
            cases hv : validateRawField f uv with
            | error e => exact ih fuel _ _ hmem' hlen'
            | ok v => exact ih fuel _ _ hmem' hlen'
        | some node =>
          rw [fieldLoop_cons_json fuel f rest doc urlPair errs object node hj]
          cases hv : validateField fuel f node with
          | error e => exact ih fuel _ _ hmem' hlen'
          | ok v => exact ih fuel _ _ hmem' hlen'

/-- Required-field error recorded by the field loop for a missing field. -/
def reqErr (F : VField) : GoErr := .wrap (F.name ++ " ") errRequired ""

theorem fieldLoop_preserve_req (F : VField) (doc : JInput)
    (urlPair : List (String × String)) (hjson : jsonGet doc F.name = none)
    (hurl : urlPair.lookup F.name = none) :
    ∀ (fs : List VField) (fuel : Nat) (errs : ErrMap) (object : List (String × Val)),
      (∀ g ∈ fs, g = F ∨ scalarNonAgg F g) →
      errs.lookup F.name = some (reqErr F) →
      ((fieldLoop fuel fs doc urlPair errs object).1).lookup F.name = some (reqErr F) := by
  intro fs
  induction fs with
  | nil =>
    intro fuel errs object _ h
    cases fuel with
    | zero => exact h
    | succ fuel => rw [fieldLoop]; exact h
  | cons f rest ih =>
    intro fuel errs object hall h
    cases fuel with
    | zero => exact h
    | succ fuel =>
      have hallrest : ∀ g ∈ rest, g = F ∨ scalarNonAgg F g :=
        fun g hg => hall g (List.mem_cons_of_mem f hg)
      rcases hall f (List.mem_cons_self f rest) with heq | hsc
      · subst heq
        rw [fieldLoop_cons_absent fuel f rest doc urlPair errs object hjson hurl]
        by_cases hrq : f.required = true
        · rw [if_pos hrq]
          refine ih fuel _ _ hallrest ?_
          rw [errsAdd_eq_insertAssoc]
          exact insertAssoc_lookup_self errs f.name (reqErr f)
        · rw [if_neg hrq]
          exact ih fuel _ _ hallrest h
      · obtain ⟨ha, ho, hname, hv⟩ := hsc
        cases hj : jsonGet doc f.name with
        | none =>
          cases hu : urlPair.lookup f.name with
          | none =>
            rw [fieldLoop_cons_absent fuel f rest doc urlPair errs object hj hu]
            by_cases hrq : f.required = true
            · rw [if_pos hrq]
              refine ih fuel _ _ hallrest ?_
              rw [errsAdd_eq_insertAssoc,
                insertAssoc_lookup_ne errs f.name F.name _ (Ne.symm hname)]
              exact h
            · rw [if_neg hrq]
              exact ih fuel _ _ hallrest h
          | some uv =>
            rw [fieldLoop_cons_url fuel f rest doc urlPair errs object uv hj hu]
            cases hve : validateRawField f uv with
            | error e =>
              refine ih fuel _ _ hallrest ?_
              rw [mergeFieldErr_nonagg _ _ _ (validateRawField_error_asAgg f uv e hv hve)]
              rw [errsAdd_eq_insertAssoc,
                insertAssoc_lookup_ne errs f.name F.name _ (Ne.symm hname)]
              exact h
            | ok v => exact ih fuel _ _ hallrest h
        | some node =>
          rw [fieldLoop_cons_json fuel f rest doc urlPair errs object node hj]
          cases hve : validateField fuel f node with
          | error e =>
            refine ih fuel _ _ hallrest ?_
            rw [mergeFieldErr_nonagg _ _ _
              (validateField_scalar_error_asAgg fuel f node e ha ho hv hve)]
            rw [errsAdd_eq_insertAssoc,
              insertAssoc_lookup_ne errs f.name F.name _ (Ne.symm hname)]
            exact h
          | ok v => exact ih fuel _ _ hallrest h

theorem fieldLoop_required_value (F : VField) (hreq : F.required = true)
    (doc : JInput) (urlPair : List (String × String))
    (hjson : jsonGet doc F.name = none) (hurl : urlPair.lookup F.name = none) :
    ∀ (fs : List VField) (fuel : Nat) (errs : ErrMap) (object : List (String × Val)),
      F ∈ fs → fs.length < fuel →
      (∀ g ∈ fs, g = F ∨ scalarNonAgg F g) →
      errs.lookup F.name = none →
      ((fieldLoop fuel fs doc urlPair errs object).1).lookup F.name = some (reqErr F) := by
  intro fs
  induction fs with
  | nil => intro fuel errs object hmem; cases hmem
  | cons f rest ih =>
    intro fuel errs object hmem hlen hall herrs
    cases fuel with
    | zero => cases hlen
    | succ fuel =>
      have hlen' : rest.length < fuel := by
        simp only [List.length_cons] at hlen
        omega
      have hallrest : ∀ g ∈ rest, g = F ∨ scalarNonAgg F g :=
        fun g hg => hall g (List.mem_cons_of_mem f hg)
      rcases hall f (List.mem_cons_self f rest) with heq | hsc
      · subst heq
        rw [fieldLoop_cons_absent fuel f rest doc urlPair errs object hjson hurl,
          if_pos hreq]
        refine fieldLoop_preserve_req f doc urlPair hjson hurl rest fuel _ object
          hallrest ?_
        rw [errsAdd_eq_insertAssoc]
        exact insertAssoc_lookup_self errs f.name (reqErr f)
      · obtain ⟨ha, ho, hname, hv⟩ := hsc
        have hne : F ≠ f := fun h => hname (congrArg VField.name h.symm)
        have hFmem : F ∈ rest := by
          rcases List.mem_cons.mp hmem with h' | h'
          · exact absurd h' hne
          · exact h'
        cases hj : jsonGet doc f.name with
        | none =>
          cases hu : urlPair.lookup f.name with
          | none =>
            rw [fieldLoop_cons_absent fuel f rest doc urlPair errs object hj hu]
            by_cases hrq : f.required = true
            · rw [if_pos hrq]
              refine ih fuel _ _ hFmem hlen' hallrest ?_
              rw [errsAdd_eq_insertAssoc,
                insertAssoc_lookup_ne errs f.name F.name _ (Ne.symm hname)]
              exact herrs
            · rw [if_neg hrq]
              exact ih fuel _ _ hFmem hlen' hallrest herrs
          | some uv =>
            rw [fieldLoop_cons_url fuel f rest doc urlPair errs object uv hj hu]
            cases hve : validateRawField f uv with
            | error e =>
              refine ih fuel _ _ hFmem hlen' hallrest ?_
              rw [mergeFieldErr_nonagg _ _ _ (validateRawField_error_asAgg f uv e hv hve)]
              rw [errsAdd_eq_insertAssoc,
                insertAssoc_lookup_ne errs f.name F.name _ (Ne.symm hname)]
              exact herrs
            | ok v => exact ih fuel _ _ hFmem hlen' hallrest herrs
        | some node =>
          rw [fieldLoop_cons_json fuel f rest doc urlPair errs object node hj]
          cases hve : validateField fuel f node with
          | error e =>
            refine ih fuel _ _ hFmem hlen' hallrest ?_
            rw [mergeFieldErr_nonagg _ _ _
              (validateField_scalar_error_asAgg fuel f node e ha ho hv hve)]
            rw [errsAdd_eq_insertAssoc,
              insertAssoc_lookup_ne errs f.name F.name _ (Ne.symm hname)]
            exact herrs
          | ok v => exact ih fuel _ _ hFmem hlen' hallrest herrs

theorem mergeParamsPair_snd_lookup_none (declared : List (String × Bool))
    (allow : Bool) (k : String) :
    ∀ (pair : List (String × String)) (errs : ErrMap)
      (urlPair : List (String × String)),
      (∀ kv ∈ pair, kv.1 ≠ k) → urlPair.lookup k = none →
      ((mergeParamsPair declared allow pair errs urlPair).2).lookup k = none := by
  intro pair
  induction pair with
  | nil => intro errs urlPair _ h; exact h
  | cons kv rest ih =>
    intro errs urlPair hall h
    obtain ⟨k0, v0⟩ := kv
    have hk0 : k0 ≠ k := hall (k0, v0) (List.mem_cons_self _ rest)
    rw [mergeParamsPair]
    refine ih _ _ (fun kv hm => hall kv (List.mem_cons_of_mem _ hm)) ?_
    rw [insertAssoc_lookup_ne urlPair k0 k v0 (Ne.symm hk0)]
    exact h

theorem mergeParamsList_snd_lookup_none (declared : List (String × Bool))
    (allow : Bool) (k : String) :
    ∀ (ps : List (List (String × String))) (errs : ErrMap)
      (urlPair : List (String × String)),
      (∀ pair ∈ ps, ∀ kv ∈ pair, kv.1 ≠ k) → urlPair.lookup k = none →
      ((mergeParamsList declared allow ps errs urlPair).2).lookup k = none := by
  intro ps
  induction ps with
  | nil => intro errs urlPair _ h; exact h
  | cons pair rest ih =>
    intro errs urlPair hall h
    rw [mergeParamsList]
    refine ih _ _ (fun p hm => hall p (List.mem_cons_of_mem _ hm)) ?_
    exact mergeParamsPair_snd_lookup_none declared allow k pair errs urlPair
      (hall pair (List.mem_cons_self _ rest)) h

/-- Required scalar string field "f" with no validators, used for C1. -/
def c1Field : VField := .mk "f" true false false [] false false .fstr []

/-- C1 counterexample: a schema with required field "f", a strict-mode
document {"x":"1"} and no overlays leaves "f" absent from both sources, yet
Validate fails first on the structural phase: the aggregated error carries
only the unknown-json-field entry for "x" and no entry for "f" at all, so the
claim's unconditional "contains an entry for F" is false. -/
theorem c1_structural_shortcircuit :
    c1Field.required = true ∧
    jsonGet (.val (.jobj [("x", .jstr "1")])) c1Field.name = none ∧
    runSchema 3 [c1Field] false (.val (.jobj [("x", .jstr "1")])) [] =
      .error (.agg [("x", .msg "unknown json field 'x'")]) ∧
    ([("x", GoErr.msg "unknown json field 'x'")] : ErrMap).lookup c1Field.name =
      none :=
  ⟨rfl, rfl, rfl, rfl⟩

/-- C1 (amended): if the structural phase records no conflicts (the document
is valid JSON and the overlay-merge and top-level key checks produce no
errors), then a required field F absent from the JSON document and from every
overlay map makes Validate return an aggregated error with an entry under F's
name; and when every other schema field is a scalar with non-aggregating
validators, that entry is exactly "F.name is required but not found". -/
theorem c1_required_reported (fuel : Nat) (fs : List VField) (allow : Bool)
    (doc : JInput) (ps : List (List (String × String))) (F : VField)
    (hdoc : docInvalidRaw doc = none)
    (hstruct : jsonKeyCheck allow (voFieldsOf fs)
        (mergeParamsList (voFieldsOf fs) allow ps [] []).2 (jsonKeys doc)
        (mergeParamsList (voFieldsOf fs) allow ps [] []).1 = [])
    (hmem : F ∈ fs) (hreq : F.required = true)
    (hjson : jsonGet doc F.name = none)
    (hps : ∀ pair ∈ ps, ∀ kv ∈ pair, kv.1 ≠ F.name)
    (hlen : fs.length < fuel) :
    (∃ es, runSchema (fuel + 1) fs allow doc ps = .error (.agg es) ∧
        (es.lookup F.name).isSome = true) ∧
    ((∀ g ∈ fs, g = F ∨ scalarNonAgg F g) →
      ∃ es, runSchema (fuel + 1) fs allow doc ps = .error (.agg es) ∧
        es.lookup F.name = some (reqErr F)) := by
  have hurl : ((mergeParamsList (voFieldsOf fs) allow ps [] []).2).lookup F.name =
      none :=
    mergeParamsList_snd_lookup_none (voFieldsOf fs) allow F.name ps [] [] hps rfl
  have hsome : (((fieldLoop fuel fs doc
      (mergeParamsList (voFieldsOf fs) allow ps [] []).2 [] []).1).lookup
      F.name).isSome = true :=
    fieldLoop_required_isSome F hreq doc _ hjson hurl fs fuel [] [] hmem hlen
  have hne : ((fieldLoop fuel fs doc
      (mergeParamsList (voFieldsOf fs) allow ps [] []).2 [] []).1).isEmpty =
      false := by
    cases hE : (fieldLoop fuel fs doc
        (mergeParamsList (voFieldsOf fs) allow ps [] []).2 [] []).1 with
    | nil =>
      rw [hE] at hsome
      simp [List.lookup] at hsome
    | cons a l => rfl
  have hrun : runSchema (fuel + 1) fs allow doc ps =
      .error (.agg (fieldLoop fuel fs doc
        (mergeParamsList (voFieldsOf fs) allow ps [] []).2 [] []).1) := by
    rw [runSchema, hdoc]
    simp [hstruct, hne]
  refine ⟨⟨_, hrun, hsome⟩, fun hall => ⟨_, hrun, ?_⟩⟩
  exact fieldLoop_required_value F hreq doc _ hjson hurl fs fuel [] [] hmem hlen
    hall rfl

/-- Witness for C1 at a concrete schema: one required field "f", the empty
JSON object document, strict mode, no overlays. -/
theorem c1_required_reported_witness :
    ∃ es, runSchema 3 [c1Field] false (.val (.jobj [])) [] = .error (.agg es) ∧
      es.lookup c1Field.name = some (reqErr c1Field) :=
  (c1_required_reported 2 [c1Field] false (.val (.jobj [])) [] c1Field rfl rfl
      (List.mem_cons_self _ _) rfl rfl (fun p hp => absurd hp (List.not_mem_nil p))
      (by decide)).2
    (fun g hg => Or.inl (List.mem_singleton.mp hg))

/-- Dot-join of a key path, realizing FlatMap's accumulated prefixes. -/
def joinDot : List String → String
  | [] => ""
  | [k] => k
  | k :: rest => k ++ "." ++ joinDot rest

mutual
/-- The spec's view of the container: the leaf paths of a value. Descent goes
only through map-shaped values; arrays and scalars are terminal. -/
def leafEntries : Val → List (List String × Val)
  | .vobj fs => leafEntriesList fs
  | v => [([], v)]
/-- Leaf paths of a map's entries, each extended by its own key. -/
def leafEntriesList : List (String × Val) → List (List String × Val)
  | [] => []
  | (k, v) :: rest =>
    (leafEntries v).map (fun pv => (k :: pv.1, pv.2)) ++ leafEntriesList rest
end

/-- The spec's flattened form of the container: a single-level map with one
entry per leaf, keyed by the dot-joined leaf path, valued by the terminal
value. -/
def flatSpec (d : List (String × Val)) : List (String × Val) :=
  (leafEntriesList d).map (fun pv => (joinDot pv.1, pv.2))

/-- The block of flattened entries contributed by one top-level key. -/
def blockOf (d : List (String × Val)) (k : String) : List (String × Val) :=
  match d.lookup k with
  | some v => (leafEntries v).map (fun pv => (joinDot (k :: pv.1), pv.2))
  | none => []

theorem append_dot_ne_empty (pre k : String) : pre ++ "." ++ k ≠ "" := by
  intro h
  have h1 : (pre ++ "." ++ k).length = 0 := by rw [h]; rfl
  rw [String.length_append, String.length_append] at h1
  have h2 : ("." : String).length = 1 := rfl
  rw [h2] at h1
  omega

theorem joinDot_cons_cons (a b : String) (p : List String) :
    joinDot (a :: b :: p) = a ++ "." ++ joinDot (b :: p) := rfl

theorem joinDot_extend (pre k : String) (p : List String) :
    joinDot ((pre ++ "." ++ k) :: p) = pre ++ "." ++ joinDot (k :: p) := by
  cases p with
  | nil => rfl
  | cons q qs => simp [joinDot_cons_cons, String.append_assoc]

theorem lookup_none_of_not_mem_keys {α : Type} (m : List (String × α)) (k : String)
    (h : k ∉ m.map Prod.fst) : m.lookup k = none := by
  induction m with
  | nil => rfl
  | cons kv rest ih =>
    obtain ⟨k0, v0⟩ := kv
    have hk : ¬ k = k0 := fun he => h (by simp [he])
    have hkb : (k == k0) = false := beq_eq_false_iff_ne.mpr hk
    simp only [List.lookup, hkb]
    exact ih (fun hm => h (by simp only [List.map_cons]; exact List.mem_cons_of_mem _ hm))

theorem lookup_append_none {α : Type} (a b : List (String × α)) (k : String)
    (ha : a.lookup k = none) : (a ++ b).lookup k = b.lookup k := by
  induction a with
  | nil => rfl
  | cons kv rest ih =>
    obtain ⟨k0, v0⟩ := kv
    cases hkb : (k == k0) with
    | true =>
      simp only [List.lookup, hkb] at ha
      cases ha
    | false =>
      simp only [List.lookup, hkb] at ha
      simp only [List.cons_append, List.lookup, hkb]
      exact ih ha

theorem lookup_append_none2 {α : Type} (a b : List (String × α)) (k : String)
    (ha : a.lookup k = none) (hb : b.lookup k = none) : (a ++ b).lookup k = none := by
  rw [lookup_append_none a b k ha]
  exact hb

theorem lookup_of_mem_nodup {α : Type} :
    ∀ (m : List (String × α)) (k : String) (v : α),
      (k, v) ∈ m → (m.map Prod.fst).Nodup → m.lookup k = some v := by
  intro m
  induction m with
  | nil => intro k v hm; cases hm
  | cons kv rest ih =>
    intro k v hm hnd
    obtain ⟨k0, v0⟩ := kv
    rw [List.map_cons, List.nodup_cons] at hnd
    rcases List.mem_cons.mp hm with he | hm'
    · rw [Prod.mk.injEq] at he
      obtain ⟨h1, h2⟩ := he
      subst h1
      subst h2
      simp [List.lookup]
    · have hkeys : k ∈ rest.map Prod.fst := List.mem_map_of_mem Prod.fst hm'
      have hk : (k == k0) = false :=
        beq_eq_false_iff_ne.mpr (fun he => hnd.1 (he ▸ hkeys))
      simp only [List.lookup, hk]
      exact ih k v hm' hnd.2

theorem insertOverwrite_fresh (out : List (String × Val)) (k : String) (v : Val)
    (h : out.lookup k = none) : insertOverwrite out k v = out ++ [(k, v)] := by
  rw [insertOverwrite, if_neg]
  intro hc
  rw [anyKey_eq_lookup_isSome, h] at hc
  cases hc

theorem flat_fusion_aux : ∀ (n : Nat),
    (∀ v : Val, sizeOf v ≤ n → ∀ (out : List (String × Val)) (pre : String),
      pre ≠ "" →
      (((leafEntries v).map
        (fun pv => (joinDot (pre :: pv.1), pv.2))).map Prod.fst).Nodup →
      (∀ kv ∈ (leafEntries v).map (fun pv => (joinDot (pre :: pv.1), pv.2)),
        out.lookup kv.1 = none) →
      flatWalk out pre v =
        out ++ (leafEntries v).map (fun pv => (joinDot (pre :: pv.1), pv.2))) ∧
    (∀ fs : List (String × Val), sizeOf fs ≤ n →
      ∀ (out : List (String × Val)) (pre : String), pre ≠ "" →
      (((leafEntriesList fs).map
        (fun pv => (joinDot (pre :: pv.1), pv.2))).map Prod.fst).Nodup →
      (∀ kv ∈ (leafEntriesList fs).map (fun pv => (joinDot (pre :: pv.1), pv.2)),
        out.lookup kv.1 = none) →
      flatFold out pre fs =
        out ++ (leafEntriesList fs).map (fun pv => (joinDot (pre :: pv.1), pv.2))) := by
  intro n
  induction n with
  | zero =>
    constructor
    · intro v hv
      exfalso
      cases v <;> simp at hv <;> omega
    · intro fs hfs
      exfalso
      cases fs <;> simp at hfs <;> omega
  | succ n ih =>
    constructor
    · intro v hv out pre hpre hnd hfresh
      cases v with
      | vobj fs =>
        have hfs : sizeOf fs ≤ n := by simp at hv; omega
        rw [flatWalk]
        exact ih.2 fs hfs out pre hpre hnd hfresh
      | vstr s =>
        rw [flatWalk, if_neg hpre,
          insertOverwrite_fresh out pre _ (hfresh _ (List.mem_singleton.mpr rfl))]
        · rfl
        · intro fs h
          cases h
      | vbool b =>
        rw [flatWalk, if_neg hpre,
          insertOverwrite_fresh out pre _ (hfresh _ (List.mem_singleton.mpr rfl))]
        · rfl
        · intro fs h
          cases h
      | vint w m =>
        rw [flatWalk, if_neg hpre,
          insertOverwrite_fresh out pre _ (hfresh _ (List.mem_singleton.mpr rfl))]
        · rfl
        · intro fs h
          cases h
      | vuint w m =>
        rw [flatWalk, if_neg hpre,
          insertOverwrite_fresh out pre _ (hfresh _ (List.mem_singleton.mpr rfl))]
        · rfl
        · intro fs h
          cases h
      | varr t es =>
        rw [flatWalk, if_neg hpre,
          insertOverwrite_fresh out pre _ (hfresh _ (List.mem_singleton.mpr rfl))]
        · rfl
        · intro fs h
          cases h
      | varrObj es =>
        rw [flatWalk, if_neg hpre,
          insertOverwrite_fresh out pre _ (hfresh _ (List.mem_singleton.mpr rfl))]
        · rfl
        · intro fs h
          cases h
    · intro fs hfs out pre hpre hnd hfresh
      cases fs with
      | nil =>
        rw [flatFold]
        simp [leafEntriesList]
      | cons kv rest =>
        obtain ⟨k, v⟩ := kv
        have hv : sizeOf v ≤ n := by simp at hfs; omega
        have hrest : sizeOf rest ≤ n := by simp at hfs; omega
        have hB1 : (leafEntries v).map
            (fun pv => (joinDot ((pre ++ "." ++ k) :: pv.1), pv.2)) =
            (leafEntries v).map (fun pv => (joinDot (pre :: k :: pv.1), pv.2)) := by
          apply List.map_congr_left
          intro pv _
          rw [joinDot_extend]
          rfl
        have hL : (leafEntriesList ((k, v) :: rest)).map
            (fun pv => (joinDot (pre :: pv.1), pv.2)) =
            (leafEntries v).map (fun pv => (joinDot (pre :: k :: pv.1), pv.2)) ++
            (leafEntriesList rest).map (fun pv => (joinDot (pre :: pv.1), pv.2)) := by
          rw [leafEntriesList, List.map_append, List.map_map]
          rfl
        rw [flatFold, if_neg hpre]
        rw [hL] at hnd hfresh ⊢
        rw [List.map_append, List.nodup_append] at hnd
        obtain ⟨hnd1, hnd2, hdisj⟩ := hnd
        have hwnd : (((leafEntries v).map
            (fun pv => (joinDot ((pre ++ "." ++ k) :: pv.1), pv.2))).map
            Prod.fst).Nodup := by
          rw [hB1]
          exact hnd1
        have hwfresh : ∀ kv ∈ (leafEntries v).map
            (fun pv => (joinDot ((pre ++ "." ++ k) :: pv.1), pv.2)),
            out.lookup kv.1 = none := by
          rw [hB1]
          intro kv hm
          exact hfresh kv (List.mem_append_left _ hm)
        have hw := ih.1 v hv out (pre ++ "." ++ k) (append_dot_ne_empty pre k)
          hwnd hwfresh
        rw [hw, hB1]
        have hrfresh : ∀ kv ∈ (leafEntriesList rest).map
            (fun pv => (joinDot (pre :: pv.1), pv.2)),
            (out ++ (leafEntries v).map
              (fun pv => (joinDot (pre :: k :: pv.1), pv.2))).lookup kv.1 = none := by
          intro kv hm
          refine lookup_append_none2 _ _ _ (hfresh kv (List.mem_append_right _ hm)) ?_
          apply lookup_none_of_not_mem_keys
          intro hmem
          exact hdisj hmem (List.mem_map_of_mem Prod.fst hm)
        rw [ih.2 rest hrest _ pre hpre hnd2 hrfresh, List.append_assoc]

theorem flatWalk_fusion (v : Val) (out : List (String × Val)) (pre : String)
    (hpre : pre ≠ "")
    (hnd : (((leafEntries v).map
      (fun pv => (joinDot (pre :: pv.1), pv.2))).map Prod.fst).Nodup)
    (hfresh : ∀ kv ∈ (leafEntries v).map (fun pv => (joinDot (pre :: pv.1), pv.2)),
      out.lookup kv.1 = none) :
    flatWalk out pre v =
      out ++ (leafEntries v).map (fun pv => (joinDot (pre :: pv.1), pv.2)) :=
  (flat_fusion_aux (sizeOf v)).1 v le_rfl out pre hpre hnd hfresh

theorem flatTop_cons_none (d : List (String × Val)) (ks : List String)
    (out : List (String × Val)) (k : String) (hk : d.lookup k = none) :
    flatTop d (k :: ks) out = flatTop d ks out := by
  rw [flatTop, hk]

theorem flatTop_cons_some (d : List (String × Val)) (ks : List String)
    (out : List (String × Val)) (k : String) (v : Val) (hk : d.lookup k = some v) :
    flatTop d (k :: ks) out = flatTop d ks (flatWalk out k v) := by
  rw [flatTop, hk]

theorem flatTop_fusion (d : List (String × Val)) :
    ∀ (ks : List String) (out : List (String × Val)),
      (∀ k ∈ ks, k ≠ "") →
      ((ks.flatMap (blockOf d)).map Prod.fst).Nodup →
      (∀ kv ∈ ks.flatMap (blockOf d), out.lookup kv.1 = none) →
      flatTop d ks out = out ++ ks.flatMap (blockOf d) := by
  intro ks
  induction ks with
  | nil =>
    intro out _ _ _
    rw [flatTop]
    simp
  | cons k ks ih =>
    intro out hne hnd hfresh
    cases hk : d.lookup k with
    | none =>
      rw [flatTop_cons_none d ks out k hk]
      have hb : blockOf d k = [] := by rw [blockOf, hk]
      rw [List.flatMap_cons, hb] at hnd hfresh ⊢
      simp only [List.nil_append] at hnd hfresh ⊢
      exact ih out (fun x hx => hne x (List.mem_cons_of_mem _ hx)) hnd hfresh
    | some v =>
      rw [flatTop_cons_some d ks out k v hk]
      have hb : blockOf d k =
          (leafEntries v).map (fun pv => (joinDot (k :: pv.1), pv.2)) := by
        rw [blockOf, hk]
      rw [List.flatMap_cons, hb] at hnd hfresh ⊢
      rw [List.map_append, List.nodup_append] at hnd
      obtain ⟨hnd1, hnd2, hdisj⟩ := hnd
      have hkne : k ≠ "" := hne k (List.mem_cons_self _ _)
      have hw := flatWalk_fusion v out k hkne hnd1
        (fun kv hm => hfresh kv (List.mem_append_left _ hm))
      rw [hw]
      have hrfresh : ∀ kv ∈ ks.flatMap (blockOf d),
          (out ++ (leafEntries v).map
            (fun pv => (joinDot (k :: pv.1), pv.2))).lookup kv.1 = none := by
        intro kv hm
        refine lookup_append_none2 _ _ _ (hfresh kv (List.mem_append_right _ hm)) ?_
        apply lookup_none_of_not_mem_keys
        intro hmem
        exact hdisj hmem (List.mem_map_of_mem Prod.fst hm)
      rw [ih _ (fun x hx => hne x (List.mem_cons_of_mem _ hx)) hnd2 hrfresh,
        List.append_assoc]

theorem flatSpec_eq_flatMap :
    ∀ (d : List (String × Val)), (d.map Prod.fst).Nodup →
      flatSpec d = (d.map Prod.fst).flatMap (blockOf d) := by
  intro d
  induction d with
  | nil => intro _; rfl
  | cons kv rest ih =>
    intro hnd
    obtain ⟨k, v⟩ := kv
    rw [List.map_cons, List.nodup_cons] at hnd
    rw [List.map_cons, List.flatMap_cons]
    have hbk : blockOf ((k, v) :: rest) k =
        (leafEntries v).map (fun pv => (joinDot (k :: pv.1), pv.2)) := by
      rw [blockOf]
      simp [List.lookup]
    have hcongr : (rest.map Prod.fst).flatMap (blockOf ((k, v) :: rest)) =
        (rest.map Prod.fst).flatMap (blockOf rest) := by
      apply List.flatMap_congr
      intro x hx
      have hxk : (x == k) = false := beq_eq_false_iff_ne.mpr (fun he => hnd.1 (he ▸ hx))
      rw [blockOf, blockOf]
      simp only [List.lookup, hxk]
    rw [hbk, hcongr, ← ih hnd.2]
    rw [flatSpec, flatSpec, leafEntriesList, List.map_append, List.map_map]
    rfl

/-- C8: FlatMap recurses through the container and produces the single-level
map from dot-joined leaf path to terminal value: it is a permutation of the
spec's flatSpec (one entry per leaf, keyed joinDot of the path), agrees with
it on every lookup, finds every leaf value under its dot-joined path, and
treats arrays and scalars as terminal values stored as-is. Side conditions:
top-level keys are nonempty, top-level keys are duplicate-free, and the
dot-joined leaf paths are pairwise distinct (no nesting/dot collisions). -/
theorem c8_flatten (d : List (String × Val))
    (hne : ∀ kv ∈ d, kv.1 ≠ "")
    (hdk : (d.map Prod.fst).Nodup)
    (hnodup : ((flatSpec d).map Prod.fst).Nodup) :
    List.Perm (flatMapOf d) (flatSpec d) ∧
    (∀ k, (flatMapOf d).lookup k = (flatSpec d).lookup k) ∧
    (∀ p v, (p, v) ∈ leafEntriesList d →
      (flatMapOf d).lookup (joinDot p) = some v) ∧
    (∀ v : Val, (∀ fs, v ≠ Val.vobj fs) → leafEntries v = [([], v)]) := by
  have hperm0 : List.Perm ((d.map Prod.fst).insertionSort strLeP) (d.map Prod.fst) :=
    List.perm_insertionSort strLeP (d.map Prod.fst)
  have heq6 : flatSpec d = (d.map Prod.fst).flatMap (blockOf d) :=
    flatSpec_eq_flatMap d hdk
  have hpermF : List.Perm
      (((d.map Prod.fst).insertionSort strLeP).flatMap (blockOf d)) (flatSpec d) := by
    rw [heq6]
    exact hperm0.flatMap_right (blockOf d)
  have hndsorted : ((((d.map Prod.fst).insertionSort strLeP).flatMap
      (blockOf d)).map Prod.fst).Nodup :=
    perm_map_fst_nodup hpermF.symm hnodup
  have hfresh0 : ∀ kv ∈ ((d.map Prod.fst).insertionSort strLeP).flatMap (blockOf d),
      (([] : List (String × Val)).lookup kv.1) = none := fun kv _ => rfl
  have hne0 : ∀ k ∈ (d.map Prod.fst).insertionSort strLeP, k ≠ "" := by
    intro k hk
    have hmem : k ∈ d.map Prod.fst := hperm0.mem_iff.mp hk
    obtain ⟨kv, hkv, hfst⟩ := List.mem_map.mp hmem
    rw [← hfst]
    exact hne kv hkv
  have htop : flatMapOf d =
      ((d.map Prod.fst).insertionSort strLeP).flatMap (blockOf d) := by
    rw [flatMapOf]
    rw [flatTop_fusion d _ [] hne0 hndsorted hfresh0]
    rfl
  have hperm : List.Perm (flatMapOf d) (flatSpec d) := htop ▸ hpermF
  have hlookup : ∀ k, (flatMapOf d).lookup k = (flatSpec d).lookup k :=
    perm_lookup_eq hperm (perm_map_fst_nodup hperm.symm hnodup)
  refine ⟨hperm, hlookup, ?_, ?_⟩
  · intro p v hm
    rw [hlookup]
    exact lookup_of_mem_nodup (flatSpec d) (joinDot p) v
      (List.mem_map_of_mem _ hm) hnodup
  · intro v h
    cases v with
    | vobj fs => exact absurd rfl (h fs)
    | vstr s => rfl
    | vbool b => rfl
    | vint w m => rfl
    | vuint w m => rfl
    | varr t es => rfl
    | varrObj es => rfl

/-- Concrete validated-object container for the C8 witness: a nested user
object with a scalar and an array leaf, plus a top-level scalar. -/
def c8Doc : List (String × Val) :=
  [("user", .vobj [("name", .vstr "n"), ("tags", .varr .fstr [.vstr "x"])]),
   ("id", .vint 64 7)]

/-- Witness for C8 at the concrete container. -/
theorem c8_flatten_witness :
    (flatMapOf c8Doc).lookup "user.name" = (flatSpec c8Doc).lookup "user.name" ∧
    (flatMapOf c8Doc).lookup (joinDot ["user", "name"]) = some (.vstr "n") :=
  ⟨(c8_flatten c8Doc (by decide) (by decide) (by decide)).2.1 "user.name",
   (c8_flatten c8Doc (by decide) (by decide) (by decide)).2.2.1 ["user", "name"]
     (.vstr "n") (List.mem_cons_self _ _)⟩
